import Mathlib

/-!
# Verification of the Key Concept Extraction (KCE) engine of Ontodia

This file gives a shallow embedding, in Lean 4, of the Key Concept
Extraction scoring/selection engine of the Ontodia fork (the
`DiagramModel` concept pipeline: `extractKeyConcepts`,
`calcDensityOfConcepts`, `calcNameSimplicityOfConcepts`,
`calcBasicLevelOfConcepts`, `calcContributionOfConcepts`,
`calcOverallScoreOfConcepts`, `findConceptWithWorstOverallScore`,
`getNearestConceptsKLevel`, `calcAllPaths`, `uri2name`), of the concept
tree builder (`updateConceptTree`, `getRootOfConceptsTree`,
`getInstanceConceptsTree`) and of the SPARQL response mergers
(`getClassTree` duplicate handling, `getClassInfo`).

Conventions of the embedding:

* JavaScript numbers are modelled by `JNum := Option ℚ`: `some q` is an
  ordinary (finite) number, `none` stands for NaN.  In every division
  reachable by the embedded code a zero denominator occurs only together
  with a zero numerator (0/0 = NaN in JavaScript), so mapping division
  by zero to `none` is faithful; comparisons with `none` are `false`,
  exactly as JavaScript comparisons with NaN.
* Concepts are identified by their `id` string; `ConceptModel` objects
  are modelled by `Ctx` records carrying the cached tree fields the
  scoring code reads.  Object identity coincides with record identity
  on trees whose concept identifiers are pairwise distinct — the
  uniqueness the data model postulates for concept ids.
* `lodash` operations are modelled on lists: `union` deduplicates
  keeping first occurrences, `difference l m` filters `l` by
  non-membership in `m`, `take`/`sortBy`(stable) as usual.
-/

set_option maxRecDepth 8000
set_option linter.unusedVariables false

attribute [local semireducible] Rat.add Rat.mul Rat.inv Rat.sub

namespace KCE

/-! ## JavaScript numbers: finite rationals plus NaN -/

/-- A JavaScript number as used by the scoring code: `some q` is a finite
number, `none` is NaN. -/
abbrev JNum := Option ℚ

/-- JS addition; NaN propagates. -/
def jadd : JNum → JNum → JNum
  | some a, some b => some (a + b)
  | _, _ => none

/-- JS multiplication by a finite constant; NaN propagates. -/
def jmul (w : ℚ) : JNum → JNum
  | some a => some (w * a)
  | none => none

/-- JS division of a possibly-NaN numerator by a finite denominator.
A zero denominator yields `none`: in the embedded code this happens only
with a zero numerator, where JavaScript also produces NaN. -/
def jdivq (x : JNum) (d : ℚ) : JNum :=
  match x with
  | some a => if d = 0 then none else some (a / d)
  | none => none

/-- JS division of finite numbers, `none` when the denominator is 0
(reachable only as 0/0 = NaN). -/
def qdiv (a d : ℚ) : JNum :=
  if d = 0 then none else some (a / d)

/-- JS `<` as a Bool: any comparison involving NaN is false. -/
def jltB : JNum → JNum → Bool
  | some a, some b => decide (a < b)
  | _, _ => false

/-- JS `<=` as a Bool (used for `>=` with arguments flipped): any
comparison involving NaN is false. -/
def jleB : JNum → JNum → Bool
  | some a, some b => decide (a ≤ b)
  | _, _ => false

/-- The `if (v > max) { max = v }` update pattern of the source, with a
plain-number accumulator; a NaN candidate never wins (NaN > x is false). -/
def stepMaxQ (m : ℚ) (x : JNum) : ℚ :=
  match x with
  | some q => if m < q then q else m
  | none => m

/-- Sum of a list of JS numbers (the `sum += v` accumulation loops);
NaN absorbs. -/
def jsum (l : List JNum) : JNum := l.foldl jadd (some 0)

/-- Mean of the values of `f` over a list, as computed by the source:
accumulate the sum, then divide by `length` (0/0 = NaN for the empty
list). -/
def javg {α : Type} (f : α → JNum) (l : List α) : JNum :=
  jdivq (jsum (l.map f)) (l.length : ℚ)

/-! ## lodash-style list operations -/

/-- First-occurrence deduplication (the semantics of `lodash.union` and
`lodash.uniqBy` flattened): keeps the first copy of each element,
preserving order. -/
def dedupFAux {α : Type} [DecidableEq α] (seen : List α) : List α → List α
  | [] => []
  | a :: l => if a ∈ seen then dedupFAux seen l else a :: dedupFAux (a :: seen) l

/-- `lodash.union` of any number of lists, flattened: first-occurrence
deduplication of the concatenation. -/
def dedupF {α : Type} [DecidableEq α] (l : List α) : List α := dedupFAux [] l

/-- `lodash.union(l, r)`. -/
def jsUnion {α : Type} [DecidableEq α] (l r : List α) : List α := dedupF (l ++ r)

theorem dedupFAux_sublist {α : Type} [DecidableEq α] (seen : List α) :
    ∀ l : List α, (dedupFAux seen l).Sublist l := by
  intro l
  induction l generalizing seen with
  | nil => simp [dedupFAux]
  | cons a t ih =>
    simp only [dedupFAux]
    by_cases h : a ∈ seen
    · simp only [h, if_true]
      exact List.Sublist.cons a (ih seen)
    · simp only [h, if_false]
      exact List.Sublist.cons₂ a (ih (a :: seen))

theorem mem_dedupFAux {α : Type} [DecidableEq α] (seen : List α) :
    ∀ (l : List α) (x : α), x ∈ dedupFAux seen l ↔ x ∈ l ∧ x ∉ seen := by
  intro l
  induction l generalizing seen with
  | nil => simp [dedupFAux]
  | cons a t ih =>
    intro x
    simp only [dedupFAux]
    by_cases h : a ∈ seen
    · simp only [h, if_true, ih seen x, List.mem_cons]
      constructor
      · rintro ⟨hx, hs⟩; exact ⟨Or.inr hx, hs⟩
      · rintro ⟨hx | hx, hs⟩
        · subst hx; exact absurd h hs
        · exact ⟨hx, hs⟩
    · simp only [h, if_false, List.mem_cons, ih (a :: seen) x]
      constructor
      · rintro (hx | ⟨hx, hs⟩)
        · subst hx; exact ⟨Or.inl rfl, h⟩
        · refine ⟨Or.inr hx, fun hxs => hs (Or.inr hxs)⟩
      · rintro ⟨hx | hx, hs⟩
        · exact Or.inl hx
        · by_cases hxa : x = a
          · exact Or.inl hxa
          · refine Or.inr ⟨hx, fun hxs => ?_⟩
            rcases hxs with h1 | h1
            · exact hxa h1
            · exact hs h1

theorem mem_dedupF {α : Type} [DecidableEq α] (l : List α) (x : α) :
    x ∈ dedupF l ↔ x ∈ l := by
  simp [dedupF, mem_dedupFAux]

theorem nodup_dedupFAux {α : Type} [DecidableEq α] (seen : List α) :
    ∀ l : List α, (dedupFAux seen l).Nodup := by
  intro l
  induction l generalizing seen with
  | nil => simp [dedupFAux]
  | cons a t ih =>
    simp only [dedupFAux]
    by_cases h : a ∈ seen
    · simp only [h, if_true]; exact ih seen
    · simp only [h, if_false, List.nodup_cons]
      refine ⟨fun hmem => ?_, ih (a :: seen)⟩
      have := (mem_dedupFAux (a :: seen) t a).mp hmem
      exact this.2 (List.mem_cons_self a seen)

theorem nodup_dedupF {α : Type} [DecidableEq α] (l : List α) :
    (dedupF l).Nodup := nodup_dedupFAux [] l

theorem dedupFAux_eq_self {α : Type} [DecidableEq α] (seen : List α) :
    ∀ l : List α, l.Nodup → (∀ x ∈ l, x ∉ seen) → dedupFAux seen l = l := by
  intro l
  induction l generalizing seen with
  | nil => intro _ _; rfl
  | cons a t ih =>
    intro hnd hdisj
    have ha : a ∉ seen := hdisj a (List.mem_cons_self a t)
    simp only [dedupFAux, ha, if_false]
    rw [ih (a :: seen) (List.nodup_cons.mp hnd).2]
    intro x hx
    intro hmem
    rcases List.mem_cons.mp hmem with h1 | h1
    · exact (List.nodup_cons.mp hnd).1 (h1 ▸ hx)
    · exact hdisj x (List.mem_cons_of_mem a hx) h1

theorem dedupF_eq_self {α : Type} [DecidableEq α] (l : List α) (h : l.Nodup) :
    dedupF l = l :=
  dedupFAux_eq_self [] l h (fun _ _ => List.not_mem_nil _)

/-- `lodash.union (l, [r])` on an already-deduplicated `l` not containing
`r` just appends `r`. -/
theorem jsUnion_singleton {α : Type} [DecidableEq α] (l : List α) (r : α)
    (hnd : l.Nodup) (hr : r ∉ l) : jsUnion l [r] = l ++ [r] := by
  unfold jsUnion
  apply dedupF_eq_self
  simp [List.nodup_append, hnd, hr]

/-! ## Concept trees

`CTree` is the shape of the `ConceptModel` tree handed to
`setConceptTree`: every node carries its id, its instance count
(`count`), its property count (merged from the property-count
side-table) and its children.  The cached fields that
`updateConceptTree` computes (`level`, `allSuperConcepts`,
`allSubConcepts`, `covered`) and that `resetConceptList` flattens are
reproduced below as the `Ctx` record of a node. -/

inductive CTree : Type where
  | node (id : String) (count : Nat) (propCount : Nat) (children : List CTree)
deriving Repr

namespace CTree

def topId : CTree → String
  | .node i _ _ _ => i

def childrenOf : CTree → List CTree
  | .node _ _ _ ch => ch

def countOf : CTree → Nat
  | .node _ c _ _ => c

def propOf : CTree → Nat
  | .node _ _ p _ => p

mutual
/-- All concept ids of a tree, in the preorder used by
`resetConceptList` (`addConcept` pushes the node, then recurses into
its children). -/
def ids : CTree → List String
  | .node i _ _ ch => i :: idsForest ch

/-- Concatenated preorder ids of a list of trees. -/
def idsForest : List CTree → List String
  | [] => []
  | t :: ts => ids t ++ idsForest ts
end

mutual
/-- `allSubConcepts` of the root of a tree, as computed by
`updateConceptTree.addSubConcept`: the direct children first, then each
child's own `allSubConcepts`. -/
def subIds : CTree → List String
  | .node _ _ _ ch => ch.map topId ++ subIdsForest ch

/-- Concatenated `allSubConcepts` of a list of trees. -/
def subIdsForest : List CTree → List String
  | [] => []
  | t :: ts => subIds t ++ subIdsForest ts
end

end CTree

/-- The fields of a `ConceptModel` object after `updateConceptTree` and
the property-count merge, i.e. everything the scoring code reads from a
concept: id, instance count, property count, direct children ids,
`level` (root = 1), `allSuperConcepts` (as the ancestor id chain
`[parent, grandparent, …]`) and `allSubConcepts` (descendant ids). -/
structure Ctx where
  id : String
  count : Nat
  propCount : Nat
  childIds : List String
  level : Nat
  anc : List String
  sub : List String
deriving DecidableEq, Repr

/-- The `covered` field: `union(allSuperConcepts, allSubConcepts,
[concept])` (lodash union, first-occurrence dedup). -/
def covered (c : Ctx) : List String := dedupF (c.anc ++ c.sub ++ [c.id])

/-- The `Ctx` record of the node at the root of subtree `u`, reached
with ancestor chain `anc` at level `lvl`. -/
def mkCtx (u : CTree) (anc : List String) (lvl : Nat) : Ctx :=
  { id := u.topId, count := u.countOf, propCount := u.propOf,
    childIds := u.childrenOf.map CTree.topId,
    level := lvl, anc := anc, sub := CTree.subIds u }

mutual
/-- One traversal producing the `Ctx` record of every node: this is
`resetConceptList`'s preorder list of concepts, with the fields
`updateConceptTree` caches (`level` root = 1 and incrementing,
`allSuperConcepts` inherited from the parent, `allSubConcepts` from the
subtree). -/
def ctxListAux : CTree → List String → Nat → List Ctx
  | .node i c p ch, anc, lvl =>
    mkCtx (.node i c p ch) anc lvl :: ctxListForest ch (i :: anc) (lvl + 1)

/-- The concatenated `Ctx` records of a list of sibling subtrees. -/
def ctxListForest : List CTree → List String → Nat → List Ctx
  | [], _, _ => []
  | t :: ts, anc, lvl => ctxListAux t anc lvl ++ ctxListForest ts anc lvl
end

mutual
/-- The (subtree, ancestor chain, level) position of every node of a
tree, in the same preorder as `ctxListAux`; `ctxListAux` is the image of
this list under `mkCtx`. -/
def positionsAux : CTree → List String → Nat → List (CTree × List String × Nat)
  | .node i c p ch, anc, lvl =>
    (CTree.node i c p ch, anc, lvl) :: positionsForest ch (i :: anc) (lvl + 1)

/-- The concatenated positions of a list of sibling subtrees. -/
def positionsForest : List CTree → List String → Nat → List (CTree × List String × Nat)
  | [], _, _ => []
  | t :: ts, anc, lvl => positionsAux t anc lvl ++ positionsForest ts anc lvl
end

/-- All node positions of a tree. -/
def positions (t : CTree) : List (CTree × List String × Nat) := positionsAux t [] 1

mutual
/-- Modelled from the claim's wording for the `localDensity`
neighbourhood: all descendants of a node within `k` graph-edge-hops,
walked along the child direction only.  Used as the specification-side
description against which `getNearestConceptsKLevel` is compared. -/
def hopDescWithin : Nat → CTree → List String
  | 0, _ => []
  | k + 1, .node _ _ _ ch => hopDescForest k ch

/-- Each child contributes itself (one hop) and its own descendants
within `k` further hops. -/
def hopDescForest : Nat → List CTree → List String
  | _, [] => []
  | k, v :: vs => (v.topId :: hopDescWithin k v) ++ hopDescForest k vs
end

/-- The concept list of a tree (`this.concepts` after
`setConceptTree`), root first. -/
def ctxList (t : CTree) : List Ctx := ctxListAux t [] 1

/-- The id list of `this.concepts`. -/
def conceptIds (t : CTree) : List String := (ctxList t).map Ctx.id

/-! ## `uri2name` and name simplicity -/

/-- Index of the last occurrence of character `c` in a character list
(`String.lastIndexOf`), if any. -/
def lastIdxOf (c : Char) (s : List Char) : Option Nat :=
  (List.range s.length).foldl
    (fun acc i => if s.get? i = some c then some i else acc) none

/-- `uri2name`: the fragment after the last `#` (when `#` occurs and is
not the last character), else after the last `/` (same proviso), else
the whole uri. -/
def uri2name (s : List Char) : List Char :=
  let bySlash :=
    match lastIdxOf '/' s with
    | some j => if j ≠ s.length - 1 then s.drop (j + 1) else s
    | none => s
  match lastIdxOf '#' s with
  | some i => if i ≠ s.length - 1 then s.drop (i + 1) else bySlash
  | none => bySlash

/-- The number of matches of the regular expression `[A-Z_]` in a
character list (`name.length - name.replace(/[A-Z_]/g, '').length`). -/
def countCompound (s : List Char) : Nat :=
  s.countP (fun ch => ('A' ≤ ch && ch ≤ 'Z') || ch == '_')

/-- `NC_CONSTANT` of `DiagramModel`. -/
def NC_CONSTANT : ℚ := 3 / 10

/-- `calcNameSimplicityOfConcepts` for a single concept id:
`1 − NC_CONSTANT · (numberOfCompound − 1)`, clamped below at 0.  The
result is always a plain number. -/
def nameSimplicity (id : String) : ℚ :=
  if 1 - NC_CONSTANT * ((countCompound (uri2name id.data) : ℚ) - 1) < 0 then 0
  else 1 - NC_CONSTANT * ((countCompound (uri2name id.data) : ℚ) - 1)

/-! ## Root-to-leaf paths

`calcAllPaths` is embedded twice: once on the id graph of an arbitrary
concept structure (including multi-parent and cyclic inputs — the form
relevant to its termination behaviour), and once specialised to a
`CTree` (the shape `setConceptTree` actually passes), where the
recursion is structural.  Both follow the source line by line: a start
concept already on the current path is not extended (`indexOf < 0`
guard); a concept without children emits the accumulated path. -/

/-- A concept graph given by adjacency: each entry is a concept id with
the ids of its children.  `childrenOf` of an id without an entry is
empty. -/
structure ConceptGraph where
  adj : List (String × List String)
deriving Repr

def ConceptGraph.childrenOf (g : ConceptGraph) (i : String) : List String :=
  match g.adj.find? (fun e => e.1 = i) with
  | some e => e.2
  | none => []

def ConceptGraph.nodes (g : ConceptGraph) : List String := g.adj.map Prod.fst

theorem childrenOf_ne_nil_mem {g : ConceptGraph} {i : String}
    (h : g.childrenOf i ≠ []) : i ∈ g.nodes := by
  unfold ConceptGraph.childrenOf at h
  rcases hf : g.adj.find? (fun e => e.1 = i) with - | e
  · rw [hf] at h; exact absurd rfl h
  · have hmem := List.mem_of_find?_eq_some hf
    have heq := List.find?_some hf
    have : e.1 = i := by simpa using heq
    exact this ▸ List.mem_map_of_mem Prod.fst hmem

/-- The strictly decreasing measure of `calcAllPaths`: the number of
graph nodes not yet on the current path. -/
def pathMeasure (g : ConceptGraph) (path : List String) : Nat :=
  (g.nodes.filter (fun x => decide (x ∉ path))).length

theorem length_filter_ne_lt {α : Type} [DecidableEq α]
    (u : List α) (s : α) (hs : s ∈ u) :
    (u.filter (fun x => decide (x ≠ s))).length < u.length := by
  induction u with
  | nil => simp at hs
  | cons a t ih =>
    by_cases has : a = s
    · subst has
      have hcons : ((a :: t).filter (fun x => decide (x ≠ a))) =
          t.filter (fun x => decide (x ≠ a)) := by simp
      rw [hcons]
      have hle : (t.filter (fun x => decide (x ≠ a))).length ≤ t.length :=
        (List.filter_sublist t).length_le
      simp only [List.length_cons]
      omega
    · have hst : s ∈ t := by
        rcases List.mem_cons.mp hs with h1 | h1
        · exact absurd h1.symm has
        · exact h1
      have hlt := ih hst
      have hcons : ((a :: t).filter (fun x => decide (x ≠ s))) =
          a :: t.filter (fun x => decide (x ≠ s)) := by simp [has]
      rw [hcons]
      simp only [List.length_cons]
      omega

theorem filter_notmem_append_lt {α : Type} [DecidableEq α]
    (l : List α) (path : List α) (s : α) (hs : s ∈ l) (hnp : s ∉ path) :
    (l.filter (fun x => decide (x ∉ path ++ [s]))).length <
      (l.filter (fun x => decide (x ∉ path))).length := by
  have hsplit : l.filter (fun x => decide (x ∉ path ++ [s])) =
      (l.filter (fun x => decide (x ∉ path))).filter (fun x => decide (x ≠ s)) := by
    rw [List.filter_filter]
    apply List.filter_congr
    intro x hx
    by_cases h1 : x ∈ path
    · have h2 : x ∈ path ++ [s] := by simp [h1]
      simp [h1, h2]
    · by_cases h3 : x = s
      · subst h3
        have h2 : x ∈ path ++ [x] := by simp
        simp [h1, h2]
      · have h2 : x ∉ path ++ [s] := by
          intro hmem
          rcases List.mem_append.mp hmem with hm | hm
          · exact h1 hm
          · exact h3 (by simpa using hm)
        simp [h1, h2, h3]
  rw [hsplit]
  apply length_filter_ne_lt
  simp only [List.mem_filter, decide_eq_true_eq]
  exact ⟨hs, hnp⟩

theorem pathMeasure_lt (g : ConceptGraph) (path : List String) (s : String)
    (hs : s ∈ g.nodes) (hnp : s ∉ path) :
    pathMeasure g (path ++ [s]) < pathMeasure g path :=
  filter_notmem_append_lt g.nodes path s hs hnp

mutual
/-- `DiagramModel.calcAllPaths` on a concept graph: enumerate all paths
from `start` extending `path`, never extending a concept already on the
current path, emitting the path at concepts without children.  The
definition is total for **every** graph (cycles and multi-parent links
included): the well-founded measure is the number of graph nodes not on
the current path. -/
def calcAllPaths (g : ConceptGraph) (start : String) (path : List String) :
    List (List String) :=
  if hmem : start ∈ path then []
  else
    let currentPath := path ++ [start]
    if hsub : g.childrenOf start = [] then [currentPath]
    else calcPathsList g (g.childrenOf start) currentPath
termination_by (pathMeasure g path, 0)
decreasing_by
  apply Prod.Lex.left
  exact pathMeasure_lt g path start (childrenOf_ne_nil_mem hsub) hmem

/-- The concatenation (`result.push(subResult)` loop) of the recursive
path enumerations over a list of sub-concepts. -/
def calcPathsList (g : ConceptGraph) (subs : List String) (path : List String) :
    List (List String) :=
  match subs with
  | [] => []
  | sc :: rest => calcAllPaths g sc path ++ calcPathsList g rest path
termination_by (pathMeasure g path, subs.length + 1)
decreasing_by
  · apply Prod.Lex.right
    simp only [List.length_cons]
    omega
  · apply Prod.Lex.right
    simp only [List.length_cons]
    omega
end

mutual
/-- `calcAllPaths` as invoked by `setConceptTree` on the (tree-shaped)
active concept tree, by structural recursion on the tree.  On trees with
pairwise-distinct ids this is the same computation as the graph
version. -/
def treePathsAux : CTree → List String → List (List String)
  | .node i _ _ ch, path =>
    if i ∈ path then []
    else
      let currentPath := path ++ [i]
      if ch.isEmpty then [currentPath]
      else treePathsForest ch currentPath

/-- The concatenation of the path lists of the sibling subtrees. -/
def treePathsForest : List CTree → List String → List (List String)
  | [], _ => []
  | t :: ts, path => treePathsAux t path ++ treePathsForest ts path
end

/-- `this.paths` after `setConceptTree`: all root-to-leaf paths of the
active concept tree. -/
def treePaths (t : CTree) : List (List String) := treePathsAux t []

/-! ## Density scoring (`calcDensityOfConcepts`, `calcLocalDensity`,
`getNearestConceptsKLevel`) -/

/-- Scoring weights of `DiagramModel` (instance fields, constant). -/
def WEIGHT_SUBCLASSES : ℚ := 8 / 10
def WEIGHT_INSTANCES : ℚ := 1 / 10
def WEIGHT_PROPERTIES : ℚ := 1 / 10
def WEIGHT_GLOBAL_DENSITY : ℚ := 8 / 100
def WEIGHT_LOCAL_DENSITY : ℚ := 32 / 100
def RATIO_DISTANCE : ℚ := 1 / 10
def WEIGHT_GDL : ℚ := 5 / 10
def WEIGHT_BASIC_LEVEL : ℚ := 66 / 100
def WEIGHT_NAME_SIMPLICITY : ℚ := 33 / 100
def WEIGHT_CO : ℚ := 6 / 10
def WEIGHT_CR : ℚ := 4 / 10

/-- `aGlobalDensity` of a concept:
`children.length · WEIGHT_SUBCLASSES + count · WEIGHT_INSTANCES +
propertyCount · WEIGHT_PROPERTIES` — always a plain number. -/
def aGlobalDensity (c : Ctx) : ℚ :=
  (c.childIds.length : ℚ) * WEIGHT_SUBCLASSES
    + (c.count : ℚ) * WEIGHT_INSTANCES
    + (c.propCount : ℚ) * WEIGHT_PROPERTIES

/-- `maxAGlobalDensity` after the first pass of `calcDensityOfConcepts`
in a run started on a fresh model (the field starts at 0 and only
grows). -/
def maxAGlobalDensity (cs : List Ctx) : ℚ :=
  cs.foldl (fun m c => stepMaxQ m (some (aGlobalDensity c))) 0

/-- `globalDensity`: `aGlobalDensity / maxAGlobalDensity`, with **no**
zero guard in the source — a zero maximum gives 0/0 = NaN. -/
def globalDensity (cs : List Ctx) (c : Ctx) : JNum :=
  qdiv (aGlobalDensity c) (maxAGlobalDensity cs)

/-- Look a concept up by id in the concept list (`conceptsById`). -/
def lookupCtx (cs : List Ctx) (i : String) : Option Ctx :=
  cs.find? (fun c => c.id = i)

/-- The descendant half of `getNearestConceptsKLevel`
(`addSubConceptsKLevel`): each child is pushed and then expanded, the
level test stopping the walk `k` edge-hops below the start.  On a tree,
the source's level arithmetic (`concept.level + 1 - initLevel <= k`)
counts exactly the hops, reproduced here with `k` as fuel. -/
def descKLevel (cs : List Ctx) (c : Ctx) : Nat → List Ctx
  | 0 => []
  | k + 1 =>
    (c.childIds.filterMap (lookupCtx cs)).flatMap
      (fun ch => ch :: descKLevel cs ch k)

/-- The ancestor half (`addSuperConceptsKLevel`): the first `k` entries
of the ancestor chain (the source walks `parent` links while
`initLevel - concept.level < k`). -/
def ancKLevel (cs : List Ctx) (c : Ctx) (k : Nat) : List Ctx :=
  (c.anc.take k).filterMap (lookupCtx cs)

/-- `getNearestConceptsKLevel(k, concept)`: the concept itself, then its
sub-concepts within `k` levels, then its super-concepts within `k`
levels, deduplicated (lodash `union`). -/
def nearestKLevel (cs : List Ctx) (k : Nat) (c : Ctx) : List Ctx :=
  dedupF (c :: (descKLevel cs c k ++ ancKLevel cs c k))

/-- The first half of `calcLocalDensity`: the running maximum of the
distance-weighted global densities over the `k = 2` neighbourhood
(`maxWeightedGlobalDensity`; NaN candidates never win). -/
def maxWeighted (cs : List Ctx) (c : Ctx) : ℚ :=
  (nearestKLevel cs 2 c).foldl
    (fun m n =>
      stepMaxQ m (jmul (1 - RATIO_DISTANCE * |(c.level : ℚ) - (n.level : ℚ)|)
        (globalDensity cs n))) 0

/-- The second half of `calcLocalDensity`:
`globalDensity / maxWeighted + WEIGHT_GDL · globalDensity` — again with
no zero guard. -/
def localDensity (cs : List Ctx) (c : Ctx) : JNum :=
  jadd (jdivq (globalDensity cs c) (maxWeighted cs c))
    (jmul WEIGHT_GDL (globalDensity cs c))

/-- `density`: `WEIGHT_GLOBAL_DENSITY · globalDensity +
WEIGHT_LOCAL_DENSITY · localDensity`. -/
def density (cs : List Ctx) (c : Ctx) : JNum :=
  jadd (jmul WEIGHT_GLOBAL_DENSITY (globalDensity cs c))
    (jmul WEIGHT_LOCAL_DENSITY (localDensity cs c))

/-! ## Category value (`calcBasicLevelOfConcepts`,
`calcNaturalCategoryValueOfConcepts`) and composite score -/

/-- The basic-level vote count of a concept id: one vote per enumerated
path of length ≥ 3 on which the concept is an interior node (the path's
first and last nodes excluded). -/
def basicLevelCount (paths : List (List String)) (i : String) : Nat :=
  paths.foldl
    (fun acc p => if p.length ≥ 3 then acc + (p.drop 1).dropLast.count i else acc) 0

/-- The maximum accumulated basic-level count.  The source tracks the
running maximum of the increments; since counts start at 0 and only
grow, that equals the maximum of the final counts. -/
def maxBasicLevel (paths : List (List String)) (cs : List Ctx) : Nat :=
  cs.foldl (fun m c => max m (basicLevelCount paths c.id)) 0

/-- Normalised `basicLevel`: `count / max`, 0/0 = NaN when no path of
length ≥ 3 exists. -/
def basicLevel (paths : List (List String)) (cs : List Ctx) (c : Ctx) : JNum :=
  qdiv (basicLevelCount paths c.id) (maxBasicLevel paths cs)

/-- `ncValue`: `WEIGHT_BASIC_LEVEL · basicLevel +
WEIGHT_NAME_SIMPLICITY · nameSimplicity`. -/
def ncValue (paths : List (List String)) (cs : List Ctx) (c : Ctx) : JNum :=
  jadd (jmul WEIGHT_BASIC_LEVEL (basicLevel paths cs c))
    (some (WEIGHT_NAME_SIMPLICITY * nameSimplicity c.id))

/-- `calcScoreOfConcepts`: `score = ncValue + density`, for the concept
list and path list of a tree. -/
def scoreOf (t : CTree) (c : Ctx) : JNum :=
  jadd (ncValue (treePaths t) (ctxList t) c) (density (ctxList t) c)

/-! ## Greedy selection (`calcContributionOfConcepts`,
`calcOverallScoreOfConcepts`, `findConceptWithWorstOverallScore`,
`extractKeyConcepts`) -/

/-- The union of the `covered` lists of the members of `concepts` other
than `c` (`coverOfOtherConcepts`); only membership in it is consumed. -/
def coverOfOthers (concepts : List Ctx) (c : Ctx) : List String :=
  ((concepts.filter (fun o => o ≠ c)).map covered).flatten

/-- The contribution of `c` within the set `concepts`:
`difference(c.covered, coverOfOtherConcepts).length`. -/
def contribution (concepts : List Ctx) (c : Ctx) : Nat :=
  ((covered c).filter (fun x => decide (x ∉ coverOfOthers concepts c))).length

/-- `calcContributionOfConcepts`: the average contribution (0/0 = NaN on
the empty set). -/
def avgContribution (concepts : List Ctx) : JNum :=
  qdiv ((concepts.map (fun c => (contribution concepts c : ℚ))).sum)
    (concepts.length : ℚ)

/-- `findMaxContribution` (running `if >` maximum starting at 0). -/
def maxContribution (concepts : List Ctx) : Nat :=
  concepts.foldl (fun m c => max m (contribution concepts c)) 0

/-- The `overallScore` written for a member `c` of the set `concepts`:
`WEIGHT_CO · contribution/maxContribution + WEIGHT_CR · score` — no
guard for a zero `maxContribution` (the source's
`if (!sumOverallScore) { }` block is empty), so a set in which no
concept contributes yields NaN for every member. -/
def overallScore (t : CTree) (concepts : List Ctx) (c : Ctx) : JNum :=
  jadd (jmul WEIGHT_CO (qdiv (contribution concepts c) (maxContribution concepts)))
    (jmul WEIGHT_CR (scoreOf t c))

/-- `calcOverallScoreOfConcepts`: the average of the overall scores
written for the set. -/
def avgOverallScore (t : CTree) (concepts : List Ctx) : JNum :=
  javg (overallScore t concepts) concepts

/-- `findConceptWithWorstOverallScore`: scan the set keeping the member
with the smallest overall score below the sentinel 2 (the source's
comment: "The overall score value never exceed 2"); a NaN score never
wins a `<` comparison, so a set whose members all score NaN yields
`undefined` (`none`).
One scan step is the named function `worstStep` below. -/
def worstStep (ov : Ctx → JNum) (acc : ℚ × Option Ctx) (c : Ctx) : ℚ × Option Ctx :=
  match ov c with
  | some q => if q < acc.1 then (q, some c) else acc
  | none => acc

def findWorst (concepts : List Ctx) (ov : Ctx → JNum) : Option Ctx :=
  (concepts.foldl (worstStep ov) ((2 : ℚ), (none : Option Ctx))).2

/-- Stable insertion preserving the `sortBy`-ascending order on the key
`-score` (descending score, NaN keys last, equal keys in original
order). -/
def insertByScore (key : Ctx → JNum) (x : Ctx) : List Ctx → List Ctx
  | [] => [x]
  | h :: ts =>
    if jltB (key h) (key x) then x :: h :: ts else h :: insertByScore key x ts

/-- `sortBy(concepts, -score)`: stable descending sort on `score`, NaN
scores at the end — the order lodash produces. -/
def sortByScoreDesc (key : Ctx → JNum) : List Ctx → List Ctx
  | [] => []
  | h :: ts => insertByScore key h (sortByScoreDesc key ts)

/-- The mutable selection state in `extractKeyConcepts`' loop: the
working set, the two running averages and the `overallScore` field of
every concept (also mutated on rejected candidates). -/
structure KState where
  best : List Ctx
  avgC : JNum
  avgO : JNum
  ov : Ctx → JNum

/-- The candidate set formed in one iteration of `extractKeyConcepts`'
loop for the remainder concept `r`: find the worst member of the working
set (by the stored, possibly stale, `overallScore` fields — when every
member's stored score is NaN there is no worst member and nothing is
dropped), remove it (`difference`), adjoin `r` (`union`). -/
def kceCandidate (st : KState) (r : Ctx) : List Ctx :=
  let worst := findWorst st.best st.ov
  let excluded :=
    match worst with
    | some w => st.best.filter (fun c => c ≠ w)
    | none => st.best
  jsUnion excluded [r]

/-- One iteration of `extractKeyConcepts`' loop: recompute contributions
and overall scores of the candidate set (this mutates the
`overallScore` fields regardless of acceptance) and accept exactly when
the average overall score strictly improves and the average contribution
does not drop. -/
def kceStep (t : CTree) (st : KState) (r : Ctx) : KState :=
  let newSet := kceCandidate st r
  let avgC1 := avgContribution newSet
  let avgO1 := avgOverallScore t newSet
  let ov1 : Ctx → JNum := fun c =>
    if c ∈ newSet then overallScore t newSet c else st.ov c
  if jltB st.avgO avgO1 && jleB st.avgC avgC1 then
    { best := newSet, avgC := avgC1, avgO := avgO1, ov := ov1 }
  else
    { best := st.best, avgC := st.avgC, avgO := st.avgO, ov := ov1 }

/-- `extractKeyConcepts(n)`: score every concept; when `n` is at least
the number of concepts return them all; otherwise sort by descending
score, seed the working set with the top `n`, and run one swap pass over
the remainder.  There is no rejection of non-positive `n`: scoring runs
unconditionally and `take` of a non-positive count seeds the loop with
the empty set. -/
def extractKeyConcepts (t : CTree) (n : ℤ) : List Ctx :=
  let cs := ctxList t
  if (cs.length : ℤ) ≤ n then cs
  else
    let sorted := sortByScoreDesc (scoreOf t) cs
    let best0 := sorted.take n.toNat
    let avgC0 := avgContribution best0
    let avgO0 := avgOverallScore t best0
    let ov0 : Ctx → JNum := fun c =>
      if c ∈ best0 then overallScore t best0 c else some 0
    let remain := sorted.filter (fun c => c ∉ best0)
    (remain.foldl (kceStep t) ⟨best0, avgC0, avgO0, ov0⟩).best

/-! ## The instance concept tree builder (`getInstanceConceptsTree`,
`getRootOfConceptsTree`)

Node records only keep what the root computation reads: the parent and
children id lists.  The dictionary `createdTreeNodes` is modelled as an
association list in insertion order (the enumeration order of a JS
object). -/

def THING_URI : String := "http://www.w3.org/2002/07/owl#Thing"

/-- The `parent`/`children` reference lists of a created tree node. -/
structure NodeRec where
  parents : List String
  children : List String
deriving DecidableEq, Repr

/-- The created-nodes dictionary, in insertion order. -/
abbrev NodeMap := List (String × NodeRec)

/-- Add a node with empty links if the id has no entry yet. -/
def ensureNode (m : NodeMap) (i : String) : NodeMap :=
  if (m.find? (fun e => e.1 = i)).isSome then m else m ++ [(i, ⟨[], []⟩)]

/-- Update the record stored under an id. -/
def updNode (m : NodeMap) (i : String) (f : NodeRec → NodeRec) : NodeMap :=
  m.map (fun e => if e.1 = i then (e.1, f e.2) else e)

/-- One SPARQL binding row of the instance tree query: the concept id
and, optionally, its parent's id. -/
structure ConceptBinding where
  concept : String
  parent : Option String
deriving Repr

/-- The node-creation loop of `getInstanceConceptsTree`: create the
concept if absent; when the row has a parent, create it if absent, push
the concept onto the parent's children and the parent onto the concept's
parents. -/
def buildNodes (bs : List ConceptBinding) : NodeMap :=
  bs.foldl
    (fun m b =>
      let m1 := ensureNode m b.concept
      match b.parent with
      | none => m1
      | some p =>
        let m2 := ensureNode m1 p
        updNode (updNode m2 p (fun r => { r with children := r.children ++ [b.concept] }))
          b.concept (fun r => { r with parents := r.parents ++ [p] }))
    []

/-- The parentless entries of a node map, in insertion order
(`conceptsTree` in `getRootOfConceptsTree`). -/
def rootsOf (m : NodeMap) : List String :=
  (m.filter (fun e => e.2.parents = [])).map Prod.fst

/-- `getRootOfConceptsTree`: when more than one parentless node exists,
synthesize a fresh `owl:Thing` node, attach every parentless node under
it and return it; otherwise return the single parentless node — or
`undefined` (`none`) when there is none (every concept has a parent).
Returns the chosen root and the final node map. -/
def getRootOfConceptsTree (m : NodeMap) : Option String × NodeMap :=
  let roots := rootsOf m
  if 1 < roots.length then
    let m1 := roots.foldl
      (fun acc r => updNode acc r (fun rec0 => { rec0 with parents := rec0.parents ++ [THING_URI] })) m
    (some THING_URI, m1 ++ [(THING_URI, ⟨[], roots⟩)])
  else
    (roots.head?, m)

/-- The number of parentless concepts in a node map. -/
def parentlessCount (m : NodeMap) : Nat :=
  (m.filter (fun e => e.2.parents = [])).length

/-! ## SPARQL class mergers (`getClassTree` duplicates, `getClassInfo`)

Only the instance-count merging is formalised; counts of bindings are
natural numbers (`getInstCount` of a missing literal is 0, of a numeric
literal its value). -/

/-- A class binding row reduced to its optional `instcount` literal. -/
abbrev CountBinding := Option Nat

/-- `getInstCount`. -/
def getInstCount (b : CountBinding) : Nat := b.getD 0

/-- The count stored by `getClassTree` for a class id declared by the
rows `b :: bs` (first row creates the node via `getClassModel`; each
later duplicate row overwrites the count only when a literal is present
and the stored count is still 0). -/
def classTreeMergedCount (b : CountBinding) (bs : List CountBinding) : Nat :=
  bs.foldl
    (fun acc x =>
      match x with
      | some v => if acc = 0 then v else acc
      | none => acc)
    (getInstCount b)

/-- The count stored by `getClassInfo` for a class id declared by the
rows `b :: bs` (first row creates the record; each later duplicate takes
the maximum of the stored count and the row's count). -/
def classInfoMergedCount (b : CountBinding) (bs : List CountBinding) : Nat :=
  bs.foldl (fun acc x => max acc (getInstCount x)) (getInstCount b)

/-- A localized label: (text, lang). -/
abbrev LabelPair := String × String

/-- The label list accumulated by `getClassInfo` for duplicate rows that
all carry a label: start with the first row's label, push each later
label not yet present. -/
def classInfoMergedLabels (l : LabelPair) (ls : List LabelPair) : List LabelPair :=
  ls.foldl (fun acc x => if x ∈ acc then acc else acc ++ [x]) [l]

/-- The first non-zero declared instance count (0 when none) — the value
`getClassTree`'s duplicate merging actually stores. -/
def firstNonzeroCount (l : List Nat) : Nat := (l.find? (fun v => v ≠ 0)).getD 0

/-! ## Concrete fixtures -/

/-- A one-concept ontology: a single concept with no children, no
instances, no properties (the spec calls this a valid, if unusual,
input). -/
def exSingle : CTree := .node "http://x#a" 0 0 []

/-- A three-concept chain `r → m → l` with all counts zero. -/
def exChain : CTree :=
  .node "http://x#r" 0 0 [.node "http://x#m" 0 0 [.node "http://x#l" 0 0 []]]

/-- The top-two (by score) working set of `exChain`, as
`extractKeyConcepts(2)` seeds it. -/
def exChainBest2 : List Ctx :=
  (sortByScoreDesc (scoreOf exChain) (ctxList exChain)).take 2

/-- A two-node cyclic parent input: `a` declared with parent `b` and `b`
declared with parent `a`. -/
def exCycleBindings : List ConceptBinding :=
  [⟨"http://x#a", some "http://x#b"⟩, ⟨"http://x#b", some "http://x#a"⟩]

/-- Two disconnected roots: `a → a1` and `b` (no parent). -/
def exTwoRootBindings : List ConceptBinding :=
  [⟨"http://x#a1", some "http://x#a"⟩, ⟨"http://x#b", none⟩]

/-- A cyclic concept graph that still has a root-to-leaf path:
`a → b`, `a → a` (self loop). -/
def exCycleGraph : ConceptGraph :=
  ⟨[("a", ["b", "a"]), ("b", [])]⟩

/-! # Claim theorems -/

/-! ## C7 — name simplicity -/

/-- C7 (counterexample): the claim asserts `nameSimplicity ∈ [0, 1]` for
every identifier, but the marker-free short name `person` (no uppercase
letter, no underscore) computes `1 − 0.3·(0 − 1) = 1.3 > 1`. -/
theorem C7_counterexample :
    nameSimplicity "http://x#person" = 13 / 10 ∧
      ¬ nameSimplicity "http://x#person" ≤ 1 := by
  constructor
  · decide
  · decide

/-- C7 (amended): for every identifier, `nameSimplicity` equals
`max 0 (1 − 0.3·(m − 1))` where `m` counts the uppercase letters and
underscores of the short name (not only internal markers); the value
lies in `[0, 1.3]` (not `[0, 1]`); a name with exactly one marker scores
exactly 1, while a marker-free name scores `1.3`. -/
theorem C7_nameSimplicity_formula (id : String) :
    nameSimplicity id =
      max 0 (1 - NC_CONSTANT * ((countCompound (uri2name id.data) : ℚ) - 1)) ∧
    0 ≤ nameSimplicity id ∧ nameSimplicity id ≤ 13 / 10 ∧
    (countCompound (uri2name id.data) = 1 → nameSimplicity id = 1) := by
  unfold nameSimplicity
  set m : ℚ := (countCompound (uri2name id.data) : ℚ) with hm
  have hm0 : 0 ≤ m := by positivity
  have hvle : 1 - NC_CONSTANT * (m - 1) ≤ 13 / 10 := by
    unfold NC_CONSTANT
    nlinarith
  by_cases h : 1 - NC_CONSTANT * (m - 1) < 0
  · simp only [h, if_true]
    refine ⟨(max_eq_left h.le).symm, le_refl 0, by norm_num, fun h1 => ?_⟩
    rw [hm, h1] at h
    norm_num [NC_CONSTANT] at h
  · simp only [h, if_false]
    push_neg at h
    refine ⟨(max_eq_right h).symm, h, hvle, fun h1 => ?_⟩
    rw [hm, h1]
    norm_num [NC_CONSTANT]

/-- C7 (witness): at the identifier `http://x#Person` the marker count
is 1 and the amended theorem yields `nameSimplicity = 1`. -/
theorem C7_witness :
    countCompound (uri2name "http://x#Person".data) = 1 ∧
      nameSimplicity "http://x#Person" = 1 :=
  ⟨by decide, (C7_nameSimplicity_formula "http://x#Person").2.2.2 (by decide)⟩

/-! ## C6 — duplicate-declaration merging -/

/-- The duplicate-merge step of `getClassTree` in uniform form: a later
declaration only replaces a stored zero. -/
theorem classTreeStep_eq (acc : Nat) (x : CountBinding) :
    (match x with
      | some v => if acc = 0 then v else acc
      | none => acc) = if acc = 0 then getInstCount x else acc := by
  cases x with
  | none =>
    by_cases h : acc = 0
    · simp [h, getInstCount]
    · simp [h]
  | some v =>
    by_cases h : acc = 0
    · simp [h, getInstCount]
    · simp [h]

/-- `firstNonzeroCount` unfolds on a cons cell. -/
theorem firstNonzeroCount_cons (n : Nat) (l : List Nat) :
    firstNonzeroCount (n :: l) = if n = 0 then firstNonzeroCount l else n := by
  unfold firstNonzeroCount
  by_cases h : n = 0
  · rw [List.find?_cons_of_neg _ (by simp [h]), if_pos h]
  · rw [List.find?_cons_of_pos _ (by simp [h]), if_neg h]
    rfl

/-- The first-nonzero fold over plain counts. -/
theorem firstNonzero_fold (l : List Nat) (a : Nat) :
    l.foldl (fun acc n => if acc = 0 then n else acc) a =
      if a = 0 then firstNonzeroCount l else a := by
  induction l generalizing a with
  | nil =>
    by_cases h : a = 0
    · simp [h, firstNonzeroCount, List.find?]
    · simp [h]
  | cons n rest ih =>
    rw [List.foldl_cons, ih]
    by_cases h : a = 0
    · rw [if_pos h, if_pos h, firstNonzeroCount_cons]
    · rw [if_neg h, if_neg h, if_neg h]

/-- `classTreeMergedCount` stores the first non-zero declared count. -/
theorem classTreeCount_eq_firstNonzero (b : CountBinding) (bs : List CountBinding) :
    classTreeMergedCount b bs = firstNonzeroCount ((b :: bs).map getInstCount) := by
  unfold classTreeMergedCount
  have hfold :
      bs.foldl
        (fun acc x =>
          match x with
          | some v => if acc = 0 then v else acc
          | none => acc) (getInstCount b) =
      (bs.map getInstCount).foldl (fun acc n => if acc = 0 then n else acc)
        (getInstCount b) := by
    rw [List.foldl_map]
    congr 1
    funext acc x
    exact classTreeStep_eq acc x
  rw [hfold, firstNonzero_fold, List.map_cons, firstNonzeroCount_cons]

/-- `classInfoMergedLabels` keeps everything already accumulated. -/
theorem classInfoLabels_fold_preserve :
    ∀ (ls : List LabelPair) (acc : List LabelPair) (x : LabelPair), x ∈ acc →
      x ∈ ls.foldl (fun acc y => if y ∈ acc then acc else acc ++ [y]) acc := by
  intro ls
  induction ls with
  | nil => intro acc x hx; exact hx
  | cons y rest ih =>
    intro acc x hx
    simp only [List.foldl_cons]
    by_cases h : y ∈ acc
    · simp only [h, if_true]; exact ih acc x hx
    · simp only [h, if_false]
      exact ih (acc ++ [y]) x (List.mem_append_left _ hx)

/-- Every label row reaches the accumulated label list. -/
theorem classInfoLabels_fold_mem :
    ∀ (ls : List LabelPair) (acc : List LabelPair) (x : LabelPair), x ∈ ls →
      x ∈ ls.foldl (fun acc y => if y ∈ acc then acc else acc ++ [y]) acc := by
  intro ls
  induction ls with
  | nil => intro acc x hx; simp at hx
  | cons y rest ih =>
    intro acc x hx
    simp only [List.foldl_cons]
    rcases List.mem_cons.mp hx with rfl | hx2
    · by_cases h : x ∈ acc
      · simp only [h, if_true]
        exact classInfoLabels_fold_preserve rest acc x h
      · simp only [h, if_false]
        exact classInfoLabels_fold_preserve rest (acc ++ [x]) x (by simp)
    · by_cases h : y ∈ acc
      · simp only [h, if_true]; exact ih acc x hx2
      · simp only [h, if_false]; exact ih (acc ++ [y]) x hx2

/-- C6 (counterexample): the claim says the tree builder sets a
duplicated concept's instance count to the **maximum** observed value;
for declarations with counts 5 then 9, `getClassTree` keeps 5 (the
first non-zero value) while the maximum is 9. -/
theorem C6_counterexample :
    classTreeMergedCount (some 5) [some 9] = 5 ∧
    (((some 5 :: [some 9] : List CountBinding).map getInstCount).foldl max 0 = 9) ∧
    classTreeMergedCount (some 5) [some 9] ≠
      (((some 5 :: [some 9] : List CountBinding).map getInstCount).foldl max 0) := by
  refine ⟨rfl, rfl, ?_⟩
  decide

/-- C6 (amended): duplicate declarations of the same concept id are
merged into one record and never summed; `getClassInfo` stores the
maximum observed instance count and accumulates every declared label,
while the tree builder `getClassTree` keeps the **first non-zero**
declared count (a later declaration only fills in a zero). -/
theorem C6_duplicate_merging (b : CountBinding) (bs : List CountBinding)
    (l : LabelPair) (ls : List LabelPair) :
    classInfoMergedCount b bs = ((b :: bs).map getInstCount).foldl max 0 ∧
    classTreeMergedCount b bs = firstNonzeroCount ((b :: bs).map getInstCount) ∧
    (∀ x ∈ l :: ls, x ∈ classInfoMergedLabels l ls) := by
  refine ⟨?_, classTreeCount_eq_firstNonzero b bs, ?_⟩
  · unfold classInfoMergedCount
    simp only [List.map_cons, List.foldl_cons, List.foldl_map, Nat.zero_max]
  · intro x hx
    unfold classInfoMergedLabels
    rcases List.mem_cons.mp hx with rfl | hx2
    · exact classInfoLabels_fold_preserve ls [x] x (by simp)
    · exact classInfoLabels_fold_mem ls [l] x hx2

/-- C6 (witness): on counts `[some 5, none, some 9]` with first
declaration `none`, `getClassInfo` stores 9 = max and `getClassTree`
stores 5 (the first non-zero); both label rows survive the merge. -/
theorem C6_witness :
    classInfoMergedCount none [some 5, none, some 9] =
      (((none :: [some 5, none, some 9] : List CountBinding).map getInstCount).foldl max 0) ∧
    classTreeMergedCount none [some 5, none, some 9] =
      firstNonzeroCount (((none :: [some 5, none, some 9] : List CountBinding)).map getInstCount) ∧
    (("B", "en") ∈ classInfoMergedLabels ("A", "") [("B", "en")]) := by
  have h := C6_duplicate_merging none [some 5, none, some 9] ("A", "") [("B", "en")]
  exact ⟨h.1, h.2.1, h.2.2 ("B", "en") (by simp)⟩

/-! ## C3 — missing zero guards in scoring -/

/-- C3: the spec claims every zero-denominator case is guarded
(`globalDensity = 0` on a degenerately dense tree, `overallScore`
degrading to `WEIGHT_CR · score` when the selected set's maximum
contribution is 0).  The code has no such guards: on the valid
single-concept ontology `exSingle` every concept's `globalDensity` and
`density` are NaN (`none`), and on the chain fixture the seed working
set of `extractKeyConcepts(2)` has `maxContribution = 0` and every
member's `overallScore` is NaN rather than `WEIGHT_CR · score`. -/
theorem C3_zero_guard_missing :
    ((ctxList exSingle).map (fun c => globalDensity (ctxList exSingle) c) = [none]) ∧
    ((ctxList exSingle).map (fun c => density (ctxList exSingle) c) = [none]) ∧
    maxContribution exChainBest2 = 0 ∧
    exChainBest2.map (fun c => overallScore exChain exChainBest2 c) = [none, none] ∧
    exChainBest2.map (fun c => jmul WEIGHT_CR (scoreOf exChain c)) ≠ [none, none] := by
  refine ⟨by decide, by decide, by decide, by decide, by decide⟩

/-! ## C2 — monotonic improvement of the selection loop -/

/-- C2: in every iteration of the selection loop, either the candidate
set is accepted — exactly when its average overall score is strictly
greater than the working set's and its average contribution has not
dropped, the working set and both running averages then moving to the
candidate's — or the working set and both averages stay unchanged. -/
theorem C2_selection_monotone (t : CTree) (st : KState) (r : Ctx) :
    (jltB st.avgO (avgOverallScore t (kceCandidate st r)) = true ∧
     jleB st.avgC (avgContribution (kceCandidate st r)) = true ∧
     (kceStep t st r).best = kceCandidate st r ∧
     (kceStep t st r).avgO = avgOverallScore t (kceCandidate st r) ∧
     (kceStep t st r).avgC = avgContribution (kceCandidate st r))
    ∨ ((kceStep t st r).best = st.best ∧ (kceStep t st r).avgC = st.avgC ∧
       (kceStep t st r).avgO = st.avgO) := by
  by_cases h : (jltB st.avgO (avgOverallScore t (kceCandidate st r)) &&
      jleB st.avgC (avgContribution (kceCandidate st r))) = true
  · left
    have hc := h
    rw [Bool.and_eq_true] at hc
    refine ⟨hc.1, hc.2, ?_, ?_, ?_⟩ <;> simp only [kceStep, h, if_true]
  · right
    refine ⟨?_, ?_, ?_⟩ <;>
      simp only [kceStep, h, Bool.false_eq_true, if_false]

/-! ## C5 — single canonical root -/

/-- Folding the parent-attachment update over the root list acts
entry-wise. -/
theorem foldl_updNode_eq_map (rs : List String) (m : NodeMap) :
    rs.foldl
      (fun acc r => updNode acc r
        (fun rec0 => { rec0 with parents := rec0.parents ++ [THING_URI] })) m =
    m.map (fun e => rs.foldl
      (fun e0 r => if e0.1 = r then
        (e0.1, { e0.2 with parents := e0.2.parents ++ [THING_URI] }) else e0) e) := by
  induction rs generalizing m with
  | nil => simp
  | cons r rest ih =>
    simp only [List.foldl_cons]
    rw [ih]
    unfold updNode
    rw [List.map_map]
    rfl

/-- The entry-wise attachment fold never changes the id and empties-out
exactly the entries that were parentless and not in the root list. -/
theorem entry_fold_parents (rs : List String) (e : String × NodeRec) :
    (rs.foldl
      (fun e0 r => if e0.1 = r then
        (e0.1, { e0.2 with parents := e0.2.parents ++ [THING_URI] }) else e0) e).1
      = e.1 ∧
    ((rs.foldl
      (fun e0 r => if e0.1 = r then
        (e0.1, { e0.2 with parents := e0.2.parents ++ [THING_URI] }) else e0) e).2.parents
      = [] ↔ (e.2.parents = [] ∧ e.1 ∉ rs)) := by
  induction rs generalizing e with
  | nil => simp
  | cons r rest ih =>
    simp only [List.foldl_cons]
    by_cases h : e.1 = r
    · simp only [h, if_true]
      obtain ⟨ih1, ih2⟩ := ih (r, { e.2 with parents := e.2.parents ++ [THING_URI] })
      refine ⟨ih1, ?_⟩
      rw [ih2]
      simp [h]
    · simp only [h, if_false]
      obtain ⟨ih1, ih2⟩ := ih e
      refine ⟨ih1, ?_⟩
      rw [ih2]
      simp only [List.mem_cons, and_congr_right_iff]
      intro _
      constructor
      · intro hne hmem
        rcases hmem with h1 | h1
        · exact h h1
        · exact hne h1
      · intro hne hmem
        exact hne (Or.inr hmem)

/-- A parentless entry's id is in the root list. -/
theorem parentless_mem_roots (m : NodeMap) (e : String × NodeRec)
    (he : e ∈ m) (hp : e.2.parents = []) : e.1 ∈ rootsOf m := by
  unfold rootsOf
  refine List.mem_map_of_mem Prod.fst ?_
  rw [List.mem_filter]
  exact ⟨he, by simp [hp]⟩

/-- `parentlessCount` and `rootsOf` count the same entries. -/
theorem parentlessCount_eq_roots_length (m : NodeMap) :
    parentlessCount m = (rootsOf m).length := by
  unfold parentlessCount rootsOf
  rw [List.length_map]

/-- C5 (amended): whenever the parsed input yields at least one
parentless concept, `getRootOfConceptsTree` returns a root and the
resulting node map has exactly one parentless concept (multiple
disconnected roots are all attached under one synthesized `owl:Thing`);
an input in which every concept has a parent (a parent cycle) yields no
root at all. -/
theorem C5_single_root (bs : List ConceptBinding)
    (h : rootsOf (buildNodes bs) ≠ []) :
    (∃ r, (getRootOfConceptsTree (buildNodes bs)).1 = some r) ∧
    parentlessCount (getRootOfConceptsTree (buildNodes bs)).2 = 1 := by
  set m := buildNodes bs with hm
  unfold getRootOfConceptsTree
  by_cases hlen : 1 < (rootsOf m).length
  · simp only [hlen, if_true]
    refine ⟨⟨THING_URI, rfl⟩, ?_⟩
    unfold parentlessCount
    rw [List.filter_append]
    have hthing : (([(THING_URI, (⟨[], rootsOf m⟩ : NodeRec))] : NodeMap).filter
        (fun e => e.2.parents = [])).length = 1 := by
      simp
    rw [List.length_append, hthing]
    have hzero : ((rootsOf m).foldl
        (fun acc r => updNode acc r
          (fun rec0 => { rec0 with parents := rec0.parents ++ [THING_URI] })) m).filter
        (fun e => e.2.parents = []) = [] := by
      rw [foldl_updNode_eq_map]
      rw [List.filter_eq_nil_iff]
      intro x hx
      obtain ⟨e, he, rfl⟩ := List.mem_map.mp hx
      obtain ⟨h1, h2⟩ := entry_fold_parents (rootsOf m) e
      simp only [decide_eq_true_eq]
      rw [h2]
      rintro ⟨hp, hnr⟩
      exact hnr (parentless_mem_roots m e he hp)
    rw [hzero]
    rfl
  · simp only [hlen, if_false]
    have hlen1 : (rootsOf m).length = 1 := by
      rcases Nat.lt_or_ge (rootsOf m).length 2 with h2 | h2
      · have : (rootsOf m).length ≠ 0 := fun h0 => h (List.length_eq_zero.mp h0)
        omega
      · omega
    obtain ⟨r, hr⟩ := List.length_eq_one.mp hlen1
    refine ⟨⟨r, by rw [hr]; rfl⟩, ?_⟩
    rw [parentlessCount_eq_roots_length, hlen1]

/-- C5 (counterexample): the claim promises a single root for **every**
input edge list; on the two-concept parent cycle `a → b → a` the builder
finds no parentless concept, `getRootOfConceptsTree` returns `undefined`
and no concept of the result is parentless. -/
theorem C5_counterexample :
    (getRootOfConceptsTree (buildNodes exCycleBindings)).1 = none ∧
    parentlessCount (getRootOfConceptsTree (buildNodes exCycleBindings)).2 = 0 := by
  constructor
  · decide
  · decide

/-- C5 (witness): on the two disconnected roots input the amended
theorem applies: a root is produced and exactly one parentless concept
remains. -/
theorem C5_witness :
    (∃ r, (getRootOfConceptsTree (buildNodes exTwoRootBindings)).1 = some r) ∧
    parentlessCount (getRootOfConceptsTree (buildNodes exTwoRootBindings)).2 = 1 :=
  C5_single_root exTwoRootBindings (by decide)

/-! ## C10 — termination and distinctness of path enumeration -/

/-- A path produced by the sub-concept loop comes from one of the
sub-concepts. -/
theorem mem_calcPathsList (g : ConceptGraph) (subs : List String)
    (path : List String) (p : List String) (hp : p ∈ calcPathsList g subs path) :
    ∃ sc ∈ subs, p ∈ calcAllPaths g sc path := by
  induction subs with
  | nil =>
    unfold calcPathsList at hp
    simp at hp
  | cons sc rest ih =>
    unfold calcPathsList at hp
    rcases List.mem_append.mp hp with h1 | h1
    · exact ⟨sc, by simp, h1⟩
    · obtain ⟨sc2, hsc2, hmem⟩ := ih h1
      exact ⟨sc2, by simp [hsc2], hmem⟩

/-- Every path enumerated from a duplicate-free current path is
duplicate-free, by induction on the number of graph nodes not yet on
the path — the same measure that makes `calcAllPaths` total. -/
theorem calcAllPaths_nodup_aux (n : Nat) :
    ∀ (g : ConceptGraph) (start : String) (path : List String),
      pathMeasure g path ≤ n → path.Nodup →
      ∀ p ∈ calcAllPaths g start path, p.Nodup := by
  induction n using Nat.strong_induction_on with
  | _ n ih =>
    intro g start path hle hnd p hp
    rw [calcAllPaths] at hp
    by_cases hmem : start ∈ path
    · rw [dif_pos hmem] at hp
      simp at hp
    · rw [dif_neg hmem] at hp
      have hcur : (path ++ [start]).Nodup := by
        simp [List.nodup_append, hnd, hmem]
      by_cases hsub : g.childrenOf start = []
      · rw [dif_pos hsub] at hp
        rcases List.mem_singleton.mp hp with rfl
        exact hcur
      · rw [dif_neg hsub] at hp
        obtain ⟨sc, hsc, hmem2⟩ := mem_calcPathsList g _ _ p hp
        have hlt : pathMeasure g (path ++ [start]) < pathMeasure g path :=
          pathMeasure_lt g path start (childrenOf_ne_nil_mem hsub) hmem
        have hlt2 : pathMeasure g (path ++ [start]) < n := by omega
        exact ih (pathMeasure g (path ++ [start])) hlt2 g sc (path ++ [start])
          (le_refl _) hcur p hmem2

/-- C10: `calcAllPaths` is total on **every** concept graph — cyclic or
multi-parent inputs included — because a concept already on the current
path is never extended again (the definition above carries exactly that
well-founded measure, the number of graph nodes not yet on the path);
consequently every enumerated root-to-leaf path consists of pairwise
distinct concepts. -/
theorem C10_calcAllPaths_nodup (g : ConceptGraph) (start : String)
    (p : List String) (hp : p ∈ calcAllPaths g start []) : p.Nodup :=
  calcAllPaths_nodup_aux (pathMeasure g []) g start [] (le_refl _)
    List.nodup_nil p hp

/-- C10 (witness): on the cyclic graph `a → b, a → a` the enumeration
terminates with the single path `[a, b]` — the self-loop is pruned —
and that path is duplicate-free. -/
theorem C10_witness :
    ("a" :: "b" :: []) ∈ calcAllPaths exCycleGraph "a" [] ∧
      ("a" :: "b" :: []).Nodup := by
  have ha : exCycleGraph.childrenOf "a" = ["b", "a"] := by decide
  have hb : exCycleGraph.childrenOf "b" = [] := by decide
  have hmem : ("a" :: "b" :: []) ∈ calcAllPaths exCycleGraph "a" [] := by
    rw [calcAllPaths]
    norm_num [ha]
    rw [calcPathsList]
    rw [calcAllPaths]
    norm_num [ha, hb]
    rw [calcPathsList, calcPathsList]
    rw [calcAllPaths]
    simp
  exact ⟨hmem, C10_calcAllPaths_nodup exCycleGraph "a" _ hmem⟩

/-! ## Structural lemmas about the built concept tree

These connect the flattened concept list (`resetConceptList`) with the
tree positions: every `Ctx` is the `mkCtx` of a node position, ids of
members are tree ids, ancestor chains extend downwards, and (under the
data model's globally-unique ids) `conceptsById` lookups return the
member itself. -/

theorem sizeOf_lt_of_mem_forest {u : CTree} {ts : List CTree} (h : u ∈ ts) :
    sizeOf u < sizeOf ts := List.sizeOf_lt_of_mem h

theorem sizeOf_children_lt (i : String) (c p : Nat) (ch : List CTree) :
    sizeOf ch < sizeOf (CTree.node i c p ch) := by
  simp

theorem mem_idsForest (x : String) :
    ∀ ts : List CTree, x ∈ CTree.idsForest ts ↔ ∃ u ∈ ts, x ∈ CTree.ids u := by
  intro ts
  induction ts with
  | nil => simp [CTree.idsForest]
  | cons u rest ih =>
    unfold CTree.idsForest
    rw [List.mem_append, ih]
    constructor
    · rintro (h | ⟨v, hv, hx⟩)
      · exact ⟨u, by simp, h⟩
      · exact ⟨v, by simp [hv], hx⟩
    · rintro ⟨v, hv, hx⟩
      rcases List.mem_cons.mp hv with rfl | hv2
      · exact Or.inl hx
      · exact Or.inr ⟨v, hv2, hx⟩

theorem mem_subIdsForest (x : String) :
    ∀ ts : List CTree, x ∈ CTree.subIdsForest ts ↔ ∃ u ∈ ts, x ∈ CTree.subIds u := by
  intro ts
  induction ts with
  | nil => simp [CTree.subIdsForest]
  | cons u rest ih =>
    unfold CTree.subIdsForest
    rw [List.mem_append, ih]
    constructor
    · rintro (h | ⟨v, hv, hx⟩)
      · exact ⟨u, by simp, h⟩
      · exact ⟨v, by simp [hv], hx⟩
    · rintro ⟨v, hv, hx⟩
      rcases List.mem_cons.mp hv with rfl | hv2
      · exact Or.inl hx
      · exact Or.inr ⟨v, hv2, hx⟩

theorem mem_positionsForest (pos : CTree × List String × Nat) :
    ∀ (ts : List CTree) (anc : List String) (lvl : Nat),
      pos ∈ positionsForest ts anc lvl ↔ ∃ u ∈ ts, pos ∈ positionsAux u anc lvl := by
  intro ts
  induction ts with
  | nil => intro anc lvl; simp [positionsForest]
  | cons u rest ih =>
    intro anc lvl
    unfold positionsForest
    rw [List.mem_append, ih]
    constructor
    · rintro (h | ⟨v, hv, hx⟩)
      · exact ⟨u, by simp, h⟩
      · exact ⟨v, by simp [hv], hx⟩
    · rintro ⟨v, hv, hx⟩
      rcases List.mem_cons.mp hv with rfl | hv2
      · exact Or.inl hx
      · exact Or.inr ⟨v, hv2, hx⟩

/-- `ctxListAux` is the `mkCtx` image of the position list, and the ids
of the position roots are exactly `ids`. -/
theorem ctx_positions_pack (n : Nat) :
    (∀ t : CTree, sizeOf t ≤ n → ∀ anc lvl,
      ctxListAux t anc lvl =
        (positionsAux t anc lvl).map (fun pos => mkCtx pos.1 pos.2.1 pos.2.2) ∧
      CTree.ids t = (positionsAux t anc lvl).map (fun pos => pos.1.topId)) ∧
    (∀ ts : List CTree, sizeOf ts ≤ n → ∀ anc lvl,
      ctxListForest ts anc lvl =
        (positionsForest ts anc lvl).map (fun pos => mkCtx pos.1 pos.2.1 pos.2.2) ∧
      CTree.idsForest ts = (positionsForest ts anc lvl).map (fun pos => pos.1.topId)) := by
  induction n using Nat.strong_induction_on with
  | _ n ih =>
    constructor
    · rintro ⟨i, c, p, ch⟩ hle anc lvl
      have hch : sizeOf ch ≤ n - 1 := by
        have := sizeOf_children_lt i c p ch
        omega
      have hn1 : n - 1 < n := by
        have : 0 < sizeOf (CTree.node i c p ch) := by simp
        omega
      obtain ⟨hf1, hf2⟩ := (ih (n - 1) hn1).2 ch hch (i :: anc) (lvl + 1)
      constructor
      · unfold ctxListAux positionsAux
        rw [List.map_cons]
        rw [hf1]
      · unfold CTree.ids positionsAux
        rw [List.map_cons]
        rw [hf2]
        rfl
    · intro ts hle anc lvl
      match ts with
      | [] => exact ⟨rfl, rfl⟩
      | u :: rest =>
        have hu : sizeOf u ≤ n - 1 := by
          have : sizeOf u < sizeOf (u :: rest) := by simp_arith
          omega
        have hrest : sizeOf rest ≤ n - 1 := by
          have : sizeOf rest < sizeOf (u :: rest) := by simp_arith
          omega
        have hn1 : n - 1 < n := by
          have : 0 < sizeOf (u :: rest) := by simp_arith
          omega
        obtain ⟨h1, h2⟩ := (ih (n - 1) hn1).1 u hu anc lvl
        obtain ⟨h3, h4⟩ := (ih (n - 1) hn1).2 rest hrest anc lvl
        constructor
        · unfold ctxListForest positionsForest
          rw [List.map_append, h1, h3]
        · unfold CTree.idsForest positionsForest
          rw [List.map_append, h2, h4]


theorem mem_ctxListForest (c : Ctx) :
    ∀ (ts : List CTree) (anc : List String) (lvl : Nat),
      c ∈ ctxListForest ts anc lvl ↔ ∃ u ∈ ts, c ∈ ctxListAux u anc lvl := by
  intro ts
  induction ts with
  | nil => intro anc lvl; simp [ctxListForest]
  | cons u rest ih =>
    intro anc lvl
    unfold ctxListForest
    rw [List.mem_append, ih]
    constructor
    · rintro (h | ⟨v, hv, hx⟩)
      · exact ⟨u, by simp, h⟩
      · exact ⟨v, by simp [hv], hx⟩
    · rintro ⟨v, hv, hx⟩
      rcases List.mem_cons.mp hv with rfl | hv2
      · exact Or.inl hx
      · exact Or.inr ⟨v, hv2, hx⟩

/-- `ctxListAux` as the `mkCtx` image of the positions. -/
theorem ctxListAux_eq_map (t : CTree) (anc : List String) (lvl : Nat) :
    ctxListAux t anc lvl =
      (positionsAux t anc lvl).map (fun pos => mkCtx pos.1 pos.2.1 pos.2.2) :=
  ((ctx_positions_pack (sizeOf t)).1 t (le_refl _) anc lvl).1

/-- `ids` as the root ids of the positions. -/
theorem ids_eq_map_positions (t : CTree) (anc : List String) (lvl : Nat) :
    CTree.ids t = (positionsAux t anc lvl).map (fun pos => pos.1.topId) :=
  ((ctx_positions_pack (sizeOf t)).1 t (le_refl _) anc lvl).2

/-- The ids of the concept list are the tree's preorder ids. -/
theorem map_id_ctxListAux (t : CTree) (anc : List String) (lvl : Nat) :
    (ctxListAux t anc lvl).map Ctx.id = CTree.ids t := by
  rw [ctxListAux_eq_map, ids_eq_map_positions t anc lvl, List.map_map]
  rfl

theorem conceptIds_eq_ids (t : CTree) : conceptIds t = CTree.ids t :=
  map_id_ctxListAux t [] 1

/-- Membership in the concept list through positions. -/
theorem mem_ctxListAux_iff (t : CTree) (anc : List String) (lvl : Nat) (c : Ctx) :
    c ∈ ctxListAux t anc lvl ↔
      ∃ pos ∈ positionsAux t anc lvl, c = mkCtx pos.1 pos.2.1 pos.2.2 := by
  rw [ctxListAux_eq_map]
  constructor
  · intro h
    obtain ⟨pos, hpos, heq⟩ := List.mem_map.mp h
    exact ⟨pos, hpos, heq.symm⟩
  · rintro ⟨pos, hpos, rfl⟩
    exact List.mem_map_of_mem _ hpos

theorem topId_mem_ids (t : CTree) : t.topId ∈ CTree.ids t := by
  match t with
  | .node i c p ch => unfold CTree.ids CTree.topId; exact List.mem_cons_self _ _

/-- A member ctx's id is an id of the tree. -/
theorem ctx_id_mem_ids (t : CTree) (anc : List String) (lvl : Nat) (c : Ctx)
    (hc : c ∈ ctxListAux t anc lvl) : c.id ∈ CTree.ids t := by
  obtain ⟨pos, hpos, rfl⟩ := (mem_ctxListAux_iff t anc lvl c).mp hc
  rw [ids_eq_map_positions t anc lvl]
  exact List.mem_map_of_mem _ hpos

/-- Membership in `ids` splits into the root id and the sub-concept
ids, and the sub-concept ids of a node are the ids of its children
subtrees. -/
theorem mem_ids_split (n : Nat) :
    ∀ t : CTree, sizeOf t ≤ n →
      ∀ x, x ∈ CTree.ids t ↔ (x = t.topId ∨ x ∈ CTree.subIds t) := by
  induction n using Nat.strong_induction_on with
  | _ n ih =>
    rintro ⟨i, c, p, ch⟩ hle x
    show x ∈ CTree.ids (CTree.node i c p ch) ↔ _
    unfold CTree.ids CTree.subIds CTree.topId
    rw [List.mem_cons, mem_idsForest, List.mem_append, mem_subIdsForest]
    constructor
    · rintro (rfl | ⟨u, hu, hx⟩)
      · exact Or.inl rfl
      · have hsu : sizeOf u ≤ n - 1 := by
          have h1 := List.sizeOf_lt_of_mem hu
          have h2 := sizeOf_children_lt i c p ch
          omega
        have hn1 : n - 1 < n := by
          have : 0 < sizeOf (CTree.node i c p ch) := by simp
          omega
        rcases (ih (n - 1) hn1 u hsu x).mp hx with h | h
        · exact Or.inr (Or.inl (h ▸ List.mem_map_of_mem CTree.topId hu))
        · exact Or.inr (Or.inr ⟨u, hu, h⟩)
    · rintro (rfl | (hmap | ⟨u, hu, hx⟩))
      · exact Or.inl rfl
      · obtain ⟨u, hu, rfl⟩ := List.mem_map.mp hmap
        exact Or.inr ⟨u, hu, topId_mem_ids u⟩
      · have hsu : sizeOf u ≤ n - 1 := by
          have h1 := List.sizeOf_lt_of_mem hu
          have h2 := sizeOf_children_lt i c p ch
          omega
        have hn1 : n - 1 < n := by
          have : 0 < sizeOf (CTree.node i c p ch) := by simp
          omega
        exact Or.inr ⟨u, hu, (ih (n - 1) hn1 u hsu x).mpr (Or.inr hx)⟩

theorem mem_subIds_node (i : String) (c p : Nat) (ch : List CTree) (x : String) :
    x ∈ CTree.subIds (.node i c p ch) ↔ ∃ u ∈ ch, x ∈ CTree.ids u := by
  unfold CTree.subIds
  rw [List.mem_append, mem_subIdsForest]
  constructor
  · rintro (hmap | ⟨u, hu, hx⟩)
    · obtain ⟨u, hu, rfl⟩ := List.mem_map.mp hmap
      exact ⟨u, hu, topId_mem_ids u⟩
    · exact ⟨u, hu, (mem_ids_split (sizeOf u) u (le_refl _) x).mpr (Or.inr hx)⟩
  · rintro ⟨u, hu, hx⟩
    rcases (mem_ids_split (sizeOf u) u (le_refl _) x).mp hx with rfl | h
    · exact Or.inl (List.mem_map_of_mem CTree.topId hu)
    · exact Or.inr ⟨u, hu, h⟩

theorem mem_ids_node (i : String) (c p : Nat) (ch : List CTree) (x : String) :
    x ∈ CTree.ids (.node i c p ch) ↔ (x = i ∨ x ∈ CTree.idsForest ch) := by
  unfold CTree.ids
  exact List.mem_cons

/-- Sub-ids of a tree are ids of the tree. -/
theorem subIds_subset_ids (t : CTree) (x : String) (hx : x ∈ CTree.subIds t) :
    x ∈ CTree.ids t :=
  (mem_ids_split (sizeOf t) t (le_refl _) x).mpr (Or.inr hx)


/-- Structural facts about positions: child positions of a position are
positions; a position's subtree ids are ids of the whole tree; a
position's ancestor chain extends the initial chain by ids of the tree. -/
theorem position_pack (n : Nat) :
    (∀ t : CTree, sizeOf t ≤ n → ∀ anc lvl,
      ∀ pos ∈ positionsAux t anc lvl,
        (∀ v ∈ pos.1.childrenOf,
          (v, pos.1.topId :: pos.2.1, pos.2.2 + 1) ∈ positionsAux t anc lvl) ∧
        (∀ x ∈ CTree.ids pos.1, x ∈ CTree.ids t) ∧
        (∃ inner, pos.2.1 = inner ++ anc ∧ ∀ x ∈ inner, x ∈ CTree.ids t)) ∧
    (∀ ts : List CTree, sizeOf ts ≤ n → ∀ anc lvl,
      ∀ pos ∈ positionsForest ts anc lvl,
        (∀ v ∈ pos.1.childrenOf,
          (v, pos.1.topId :: pos.2.1, pos.2.2 + 1) ∈ positionsForest ts anc lvl) ∧
        (∀ x ∈ CTree.ids pos.1, x ∈ CTree.idsForest ts) ∧
        (∃ inner, pos.2.1 = inner ++ anc ∧ ∀ x ∈ inner, x ∈ CTree.idsForest ts)) := by
  induction n using Nat.strong_induction_on with
  | _ n ih =>
    constructor
    · rintro ⟨i, c, p, ch⟩ hle anc lvl pos hpos
      have hch : sizeOf ch ≤ n - 1 := by
        have := sizeOf_children_lt i c p ch
        omega
      have hn1 : n - 1 < n := by
        have : 0 < sizeOf (CTree.node i c p ch) := by simp
        omega
      unfold positionsAux at hpos
      rcases List.mem_cons.mp hpos with rfl | hpos2
      · refine ⟨?_, fun x hx => hx, [], rfl, by simp⟩
        intro v hv
        show _ ∈ positionsAux (CTree.node i c p ch) anc lvl
        unfold positionsAux
        refine List.mem_cons_of_mem _ ?_
        rw [mem_positionsForest]
        refine ⟨v, hv, ?_⟩
        show (v, CTree.topId (CTree.node i c p ch) :: anc, lvl + 1) ∈ _
        match v with
        | .node iv cv pv chv =>
          unfold positionsAux CTree.topId
          exact List.mem_cons_self _ _
      · obtain ⟨hclose, hids, inner, hinner, hinnermem⟩ :=
          (ih (n - 1) hn1).2 ch hch (i :: anc) (lvl + 1) pos hpos2
        refine ⟨?_, ?_, ?_⟩
        · intro v hv
          unfold positionsAux
          exact List.mem_cons_of_mem _ (hclose v hv)
        · intro x hx
          rw [mem_ids_node]
          exact Or.inr (hids x hx)
        · refine ⟨inner ++ [i], by rw [hinner]; simp, ?_⟩
          intro x hx
          rcases List.mem_append.mp hx with h1 | h1
          · rw [mem_ids_node]
            exact Or.inr (hinnermem x h1)
          · rw [List.mem_singleton.mp h1, mem_ids_node]
            exact Or.inl rfl
    · intro ts hle anc lvl pos hpos
      match ts with
      | [] =>
        unfold positionsForest at hpos
        simp at hpos
      | u :: rest =>
        have hu : sizeOf u ≤ n - 1 := by
          have : sizeOf u < sizeOf (u :: rest) := by simp_arith
          omega
        have hrest : sizeOf rest ≤ n - 1 := by
          have : sizeOf rest < sizeOf (u :: rest) := by simp_arith
          omega
        have hn1 : n - 1 < n := by
          have : 0 < sizeOf (u :: rest) := by simp_arith
          omega
        unfold positionsForest at hpos
        rcases List.mem_append.mp hpos with h1 | h1
        · obtain ⟨hclose, hids, inner, hinner, hinnermem⟩ :=
            (ih (n - 1) hn1).1 u hu anc lvl pos h1
          refine ⟨?_, ?_, inner, hinner, ?_⟩
          · intro v hv
            unfold positionsForest
            exact List.mem_append_left _ (hclose v hv)
          · intro x hx
            unfold CTree.idsForest
            exact List.mem_append_left _ (hids x hx)
          · intro x hx
            unfold CTree.idsForest
            exact List.mem_append_left _ (hinnermem x hx)
        · obtain ⟨hclose, hids, inner, hinner, hinnermem⟩ :=
            (ih (n - 1) hn1).2 rest hrest anc lvl pos h1
          refine ⟨?_, ?_, inner, hinner, ?_⟩
          · intro v hv
            unfold positionsForest
            exact List.mem_append_right _ (hclose v hv)
          · intro x hx
            unfold CTree.idsForest
            exact List.mem_append_right _ (hids x hx)
          · intro x hx
            unfold CTree.idsForest
            exact List.mem_append_right _ (hinnermem x hx)


/-- A member ctx's `allSubConcepts` ids are ids of the tree. -/
theorem ctx_sub_subset (t : CTree) (anc : List String) (lvl : Nat) (c : Ctx)
    (hc : c ∈ ctxListAux t anc lvl) : ∀ x ∈ c.sub, x ∈ CTree.ids t := by
  obtain ⟨pos, hpos, rfl⟩ := (mem_ctxListAux_iff t anc lvl c).mp hc
  intro x hx
  have h1 : x ∈ CTree.ids pos.1 := subIds_subset_ids pos.1 x hx
  exact ((position_pack (sizeOf t)).1 t (le_refl _) anc lvl pos hpos).2.1 x h1

/-- A member ctx's `allSuperConcepts` chain is an in-tree prefix on top
of the initial chain. -/
theorem ctx_anc_structure (t : CTree) (anc : List String) (lvl : Nat) (c : Ctx)
    (hc : c ∈ ctxListAux t anc lvl) :
    ∃ inner, c.anc = inner ++ anc ∧ ∀ x ∈ inner, x ∈ CTree.ids t := by
  obtain ⟨pos, hpos, rfl⟩ := (mem_ctxListAux_iff t anc lvl c).mp hc
  exact ((position_pack (sizeOf t)).1 t (le_refl _) anc lvl pos hpos).2.2

/-- In a list whose image under `f` has no duplicates, searching for the
key of a member returns that member (`conceptsById` lookup). -/
theorem find?_key_eq_self {α β : Type} [DecidableEq β] (f : α → β) :
    ∀ (l : List α), (l.map f).Nodup → ∀ c ∈ l,
      l.find? (fun x => f x = f c) = some c := by
  intro l
  induction l with
  | nil => intro _ c hc; simp at hc
  | cons a rest ih =>
    intro hnd c hc
    rw [List.map_cons, List.nodup_cons] at hnd
    rcases List.mem_cons.mp hc with rfl | hc2
    · rw [List.find?_cons_of_pos _ (by simp)]
    · by_cases hfa : f a = f c
      · exfalso
        exact hnd.1 (hfa ▸ List.mem_map_of_mem f hc2)
      · rw [List.find?_cons_of_neg _ (by simp [hfa])]
        exact ih hnd.2 c hc2

/-- `conceptsById`-style lookup of a member ctx's id returns that ctx
when the tree's ids are duplicate-free. -/
theorem lookupCtx_eq_self (t : CTree) (anc : List String) (lvl : Nat)
    (hnd : (CTree.ids t).Nodup) (c : Ctx) (hc : c ∈ ctxListAux t anc lvl) :
    lookupCtx (ctxListAux t anc lvl) c.id = some c := by
  unfold lookupCtx
  have hnd2 : ((ctxListAux t anc lvl).map Ctx.id).Nodup := by
    rw [map_id_ctxListAux]; exact hnd
  exact find?_key_eq_self Ctx.id (ctxListAux t anc lvl) hnd2 c hc


/-- The ancestor/descendant duality of `updateConceptTree`'s cached
chains: for two concepts of the same (duplicate-free) tree, one's id is
on the other's `allSuperConcepts` chain exactly when the other's id is
among the first one's `allSubConcepts`. -/
theorem anc_sub_duality (n : Nat) :
    (∀ t : CTree, sizeOf t ≤ n → ∀ anc lvl, (CTree.ids t).Nodup →
      (∀ a ∈ anc, a ∉ CTree.ids t) →
      ∀ ca ∈ ctxListAux t anc lvl, ∀ cb ∈ ctxListAux t anc lvl,
        (ca.id ∈ cb.anc ↔ cb.id ∈ ca.sub)) ∧
    (∀ ts : List CTree, sizeOf ts ≤ n → ∀ anc lvl, (CTree.idsForest ts).Nodup →
      (∀ a ∈ anc, a ∉ CTree.idsForest ts) →
      ∀ ca ∈ ctxListForest ts anc lvl, ∀ cb ∈ ctxListForest ts anc lvl,
        (ca.id ∈ cb.anc ↔ cb.id ∈ ca.sub)) := by
  induction n using Nat.strong_induction_on with
  | _ n ih =>
    constructor
    · rintro ⟨i, c, p, ch⟩ hle anc lvl hnd hdisj ca hca cb hcb
      have hch : sizeOf ch ≤ n - 1 := by
        have := sizeOf_children_lt i c p ch
        omega
      have hn1 : n - 1 < n := by
        have : 0 < sizeOf (CTree.node i c p ch) := by simp
        omega
      have hndf : (CTree.idsForest ch).Nodup := by
        rw [show CTree.ids (CTree.node i c p ch) = i :: CTree.idsForest ch from rfl,
          List.nodup_cons] at hnd
        exact hnd.2
      have hinotf : i ∉ CTree.idsForest ch := by
        rw [show CTree.ids (CTree.node i c p ch) = i :: CTree.idsForest ch from rfl,
          List.nodup_cons] at hnd
        exact hnd.1
      have hi_mem : i ∈ CTree.ids (CTree.node i c p ch) := by
        rw [mem_ids_node]; exact Or.inl rfl
      -- id of a forest member lies in the children's ids
      have hmemid : ∀ e ∈ ctxListForest ch (i :: anc) (lvl + 1),
          e.id ∈ CTree.idsForest ch := by
        intro e he
        obtain ⟨u, hu, he2⟩ := (mem_ctxListForest e ch (i :: anc) (lvl + 1)).mp he
        have := ctx_id_mem_ids u (i :: anc) (lvl + 1) e he2
        rw [mem_idsForest]
        exact ⟨u, hu, this⟩
      unfold ctxListAux at hca hcb
      rcases List.mem_cons.mp hca with rfl | hca2 <;>
        rcases List.mem_cons.mp hcb with heq | hcb2
      -- both are the root
      · rw [heq]
        constructor
        · intro hmem
          exact absurd hmem (fun hmem => hdisj _ hmem hi_mem)
        · intro hmem
          exfalso
          have : (mkCtx (CTree.node i c p ch) anc lvl).id ∈
              CTree.subIds (CTree.node i c p ch) := hmem
          rw [mem_subIds_node] at this
          obtain ⟨u, hu, hidu⟩ := this
          apply hinotf
          rw [mem_idsForest]
          exact ⟨u, hu, hidu⟩
      -- ca is the root, cb is below some child
      · constructor
        · intro _
          show cb.id ∈ CTree.subIds (CTree.node i c p ch)
          rw [mem_subIds_node]
          obtain ⟨u, hu, hcb3⟩ := (mem_ctxListForest cb ch (i :: anc) (lvl + 1)).mp hcb2
          exact ⟨u, hu, ctx_id_mem_ids u (i :: anc) (lvl + 1) cb hcb3⟩
        · intro _
          obtain ⟨u, hu, hcb3⟩ := (mem_ctxListForest cb ch (i :: anc) (lvl + 1)).mp hcb2
          obtain ⟨inner, hinner, _⟩ := ctx_anc_structure u (i :: anc) (lvl + 1) cb hcb3
          show (mkCtx (CTree.node i c p ch) anc lvl).id ∈ cb.anc
          rw [hinner]
          exact List.mem_append_right _ (List.mem_cons_self _ _)
      -- ca is below some child, cb is the root
      · rw [heq]
        obtain ⟨u, hu, hca3⟩ := (mem_ctxListForest ca ch (i :: anc) (lvl + 1)).mp hca2
        constructor
        · intro hmem
          exfalso
          have hamem : ca.id ∈ CTree.idsForest ch := hmemid ca hca2
          have : ca.id ∈ anc := hmem
          have : ca.id ∈ CTree.ids (CTree.node i c p ch) := by
            rw [mem_ids_node]; exact Or.inr hamem
          exact hdisj ca.id hmem this
        · intro hmem
          exfalso
          have : (mkCtx (CTree.node i c p ch) anc lvl).id ∈ ca.sub := hmem
          have h2 := ctx_sub_subset u (i :: anc) (lvl + 1) ca hca3 _ this
          apply hinotf
          rw [mem_idsForest]
          exact ⟨u, hu, h2⟩
      -- both below children: forest induction
      · have hdisj2 : ∀ a ∈ i :: anc, a ∉ CTree.idsForest ch := by
          intro a ha
          rcases List.mem_cons.mp ha with rfl | ha2
          · exact hinotf
          · intro hmem
            apply hdisj a ha2
            rw [mem_ids_node]
            exact Or.inr hmem
        exact (ih (n - 1) hn1).2 ch hch (i :: anc) (lvl + 1) hndf hdisj2
          ca hca2 cb hcb2
    · intro ts hle anc lvl hnd hdisj ca hca cb hcb
      match ts with
      | [] =>
        unfold ctxListForest at hca
        simp at hca
      | u :: rest =>
        have hu : sizeOf u ≤ n - 1 := by
          have : sizeOf u < sizeOf (u :: rest) := by simp_arith
          omega
        have hrest : sizeOf rest ≤ n - 1 := by
          have : sizeOf rest < sizeOf (u :: rest) := by simp_arith
          omega
        have hn1 : n - 1 < n := by
          have : 0 < sizeOf (u :: rest) := by simp_arith
          omega
        have hsplit : CTree.idsForest (u :: rest) =
            CTree.ids u ++ CTree.idsForest rest := rfl
        rw [hsplit, List.nodup_append] at hnd
        obtain ⟨hndu, hndr, hdisjur⟩ := hnd
        have hdisju : ∀ a ∈ anc, a ∉ CTree.ids u := by
          intro a ha hmem
          exact hdisj a ha (by rw [hsplit]; exact List.mem_append_left _ hmem)
        have hdisjr : ∀ a ∈ anc, a ∉ CTree.idsForest rest := by
          intro a ha hmem
          exact hdisj a ha (by rw [hsplit]; exact List.mem_append_right _ hmem)
        unfold ctxListForest at hca hcb
        rcases List.mem_append.mp hca with hca2 | hca2 <;>
          rcases List.mem_append.mp hcb with hcb2 | hcb2
        · exact (ih (n - 1) hn1).1 u hu anc lvl hndu hdisju ca hca2 cb hcb2
        -- ca in head tree, cb in the rest of the forest
        · obtain ⟨w, hw, hcb3⟩ := (mem_ctxListForest cb rest anc lvl).mp hcb2
          have hcaid : ca.id ∈ CTree.ids u := ctx_id_mem_ids u anc lvl ca hca2
          have hcbid : cb.id ∈ CTree.idsForest rest := by
            rw [mem_idsForest]
            exact ⟨w, hw, ctx_id_mem_ids w anc lvl cb hcb3⟩
          constructor
          · intro hmem
            exfalso
            obtain ⟨inner, hinner, hinnersub⟩ := ctx_anc_structure w anc lvl cb hcb3
            rw [hinner] at hmem
            rcases List.mem_append.mp hmem with h1 | h1
            · have : ca.id ∈ CTree.idsForest rest := by
                rw [mem_idsForest]
                exact ⟨w, hw, hinnersub _ h1⟩
              exact hdisjur hcaid this
            · exact hdisju ca.id h1 hcaid
          · intro hmem
            exfalso
            have := ctx_sub_subset u anc lvl ca hca2 _ hmem
            exact hdisjur this hcbid
        -- ca in the rest of the forest, cb in head tree
        · obtain ⟨w, hw, hca3⟩ := (mem_ctxListForest ca rest anc lvl).mp hca2
          have hcbid : cb.id ∈ CTree.ids u := ctx_id_mem_ids u anc lvl cb hcb2
          have hcaid : ca.id ∈ CTree.idsForest rest := by
            rw [mem_idsForest]
            exact ⟨w, hw, ctx_id_mem_ids w anc lvl ca hca3⟩
          constructor
          · intro hmem
            exfalso
            obtain ⟨inner, hinner, hinnersub⟩ := ctx_anc_structure u anc lvl cb hcb2
            rw [hinner] at hmem
            rcases List.mem_append.mp hmem with h1 | h1
            · exact hdisjur (hinnersub _ h1) hcaid
            · exact hdisjr ca.id h1 hcaid
          · intro hmem
            exfalso
            have h2 := ctx_sub_subset w anc lvl ca hca3 _ hmem
            have : cb.id ∈ CTree.idsForest rest := by
              rw [mem_idsForest]
              exact ⟨w, hw, h2⟩
            exact hdisjur hcbid this
        · exact (ih (n - 1) hn1).2 rest hrest anc lvl hndr hdisjr ca hca2 cb hcb2


/-- C4: in every built concept tree (with the globally-unique concept
ids the data model postulates) the `covered` relation is symmetric:
concept A lies in B's covered set exactly when B lies in A's. -/
theorem C4_covered_symmetric (t : CTree) (hnd : (conceptIds t).Nodup)
    (ca cb : Ctx) (hca : ca ∈ ctxList t) (hcb : cb ∈ ctxList t) :
    (ca.id ∈ covered cb ↔ cb.id ∈ covered ca) := by
  have hnd2 : (CTree.ids t).Nodup := by rw [← conceptIds_eq_ids]; exact hnd
  have hdisj : ∀ a ∈ ([] : List String), a ∉ CTree.ids t := by simp
  have hdual := (anc_sub_duality (sizeOf t)).1 t (le_refl _) [] 1 hnd2 hdisj
  have h1 := hdual ca hca cb hcb
  have h2 := hdual cb hcb ca hca
  unfold covered
  rw [mem_dedupF, mem_dedupF]
  simp only [List.mem_append, List.mem_singleton]
  constructor
  · rintro ((h | h) | h)
    · exact Or.inl (Or.inr (h1.mp h))
    · exact Or.inl (Or.inl (h2.mpr h))
    · exact Or.inr h.symm
  · rintro ((h | h) | h)
    · exact Or.inl (Or.inr (h2.mp h))
    · exact Or.inl (Or.inl (h1.mpr h))
    · exact Or.inr h.symm

/-- C4 (witness): symmetry instantiated on the chain fixture for the
root `r` and the middle concept `m`. -/
theorem C4_witness :
    (conceptIds exChain).Nodup ∧
    mkCtx exChain [] 1 ∈ ctxList exChain ∧
    mkCtx (.node "http://x#m" 0 0 [.node "http://x#l" 0 0 []]) ["http://x#r"] 2 ∈
      ctxList exChain ∧
    ((mkCtx exChain [] 1).id ∈
        covered (mkCtx (.node "http://x#m" 0 0 [.node "http://x#l" 0 0 []])
          ["http://x#r"] 2) ↔
      (mkCtx (.node "http://x#m" 0 0 [.node "http://x#l" 0 0 []])
          ["http://x#r"] 2).id ∈ covered (mkCtx exChain [] 1)) :=
  ⟨by decide, by decide, by decide,
    C4_covered_symmetric exChain (by decide) _ _ (by decide) (by decide)⟩


/-- A successful `conceptsById` lookup returns an entry of the list
bearing the looked-up id. -/
theorem lookupCtx_mem_and_id (cs : List Ctx) (i : String) (e : Ctx)
    (h : lookupCtx cs i = some e) : e ∈ cs ∧ e.id = i := by
  unfold lookupCtx at h
  refine ⟨List.mem_of_find?_eq_some h, ?_⟩
  have := List.find?_some h
  simpa using this

/-- Every id present in the concept list can be looked up. -/
theorem lookupCtx_resolves (cs : List Ctx) (i : String)
    (h : ∃ c ∈ cs, c.id = i) : ∃ e, lookupCtx cs i = some e ∧ e.id = i := by
  obtain ⟨c, hc, rfl⟩ := h
  rcases hf : lookupCtx cs c.id with - | e
  · exfalso
    unfold lookupCtx at hf
    have := List.find?_eq_none.mp hf c hc
    simp at this
  · exact ⟨e, rfl, (lookupCtx_mem_and_id cs c.id e hf).2⟩

/-- Mapping ids over a filter-mapped lookup of resolvable ids is the
identity. -/
theorem map_id_filterMap_lookup (cs : List Ctx) :
    ∀ l : List String, (∀ i ∈ l, ∃ c ∈ cs, c.id = i) →
      ((l.filterMap (lookupCtx cs)).map Ctx.id = l ∧
        ∀ e ∈ l.filterMap (lookupCtx cs), e ∈ cs) := by
  intro l
  induction l with
  | nil => intro _; exact ⟨rfl, by simp⟩
  | cons i rest ih =>
    intro hres
    obtain ⟨e, he, heid⟩ := lookupCtx_resolves cs i (hres i (by simp))
    obtain ⟨ih1, ih2⟩ := ih (fun j hj => hres j (by simp [hj]))
    rw [List.filterMap_cons, he]
    constructor
    · rw [List.map_cons, ih1, heid]
    · intro x hx
      rcases List.mem_cons.mp hx with rfl | hx2
      · exact (lookupCtx_mem_and_id cs i x he).1
      · exact ih2 x hx2

/-- Elements produced by `descKLevel` are members of the concept list. -/
theorem descKLevel_mem (cs : List Ctx) :
    ∀ (k : Nat) (c : Ctx), ∀ e ∈ descKLevel cs c k, e ∈ cs := by
  intro k
  induction k with
  | zero => intro c e he; simp [descKLevel] at he
  | succ k ih =>
    intro c e he
    unfold descKLevel at he
    rw [List.mem_flatMap] at he
    obtain ⟨ch, hch, hmem⟩ := he
    have hch2 : ch ∈ cs := by
      obtain ⟨i, hi, hlook⟩ := List.mem_filterMap.mp hch
      exact (lookupCtx_mem_and_id cs i ch hlook).1
    rcases List.mem_cons.mp hmem with rfl | h2
    · exact hch2
    · exact ih ch e h2

end KCE
namespace KCE

/-- A position's `mkCtx` is a member of the concept list. -/
theorem mkCtx_mem_ctxList (t : CTree) (pos : CTree × List String × Nat)
    (hpos : pos ∈ positions t) : mkCtx pos.1 pos.2.1 pos.2.2 ∈ ctxList t := by
  unfold ctxList
  rw [ctxListAux_eq_map]
  exact List.mem_map_of_mem _ hpos

/-- `hopDescForest` as a flat map over the children. -/
theorem hopDescForest_eq (k : Nat) :
    ∀ ch : List CTree,
      hopDescForest k ch = ch.flatMap (fun v => v.topId :: hopDescWithin k v) := by
  intro ch
  induction ch with
  | nil => rfl
  | cons v vs ih =>
    unfold hopDescForest
    rw [List.flatMap_cons, ih]

/-- Filter-mapping lookups of children ids that all resolve. -/
theorem filterMap_lookup_children (cs : List Ctx) (f : CTree → Ctx) :
    ∀ vs : List CTree, (∀ v ∈ vs, lookupCtx cs v.topId = some (f v)) →
      (vs.map CTree.topId).filterMap (lookupCtx cs) = vs.map f := by
  intro vs
  induction vs with
  | nil => intro _; rfl
  | cons v rest ih =>
    intro hres
    rw [List.map_cons, List.filterMap_cons, hres v (by simp)]
    rw [ih (fun w hw => hres w (by simp [hw]))]
    rfl

/-- The descendant half of the neighbourhood visits, id for id, exactly
the descendants within `k` hops of the node's subtree. -/
theorem descKLevel_ids (t : CTree) (hnd : (CTree.ids t).Nodup) :
    ∀ (k : Nat) (pos : CTree × List String × Nat), pos ∈ positions t →
      (descKLevel (ctxList t) (mkCtx pos.1 pos.2.1 pos.2.2) k).map Ctx.id =
        hopDescWithin k pos.1 := by
  intro k
  induction k with
  | zero =>
    rintro ⟨⟨i, c, p, ch⟩, anc, lvl⟩ hpos
    rfl
  | succ k ih =>
    rintro ⟨⟨i, c, p, ch⟩, anc, lvl⟩ hpos
    have hclose := ((position_pack (sizeOf t)).1 t (le_refl _) [] 1
      ⟨⟨i, c, p, ch⟩, anc, lvl⟩ hpos).1
    have hchildctx : ∀ v ∈ ch,
        lookupCtx (ctxList t) v.topId = some (mkCtx v (i :: anc) (lvl + 1)) := by
      intro v hv
      have hvpos : ((v, i :: anc, lvl + 1) : CTree × List String × Nat) ∈
          positions t := hclose v hv
      have hvmem := mkCtx_mem_ctxList t (v, i :: anc, lvl + 1) hvpos
      have := lookupCtx_eq_self t [] 1 hnd (mkCtx v (i :: anc) (lvl + 1)) hvmem
      simpa [mkCtx] using this
    have hfm : (mkCtx (CTree.node i c p ch) anc lvl).childIds.filterMap
        (lookupCtx (ctxList t)) = ch.map (fun v => mkCtx v (i :: anc) (lvl + 1)) :=
      filterMap_lookup_children (ctxList t) _ ch hchildctx
    unfold descKLevel
    rw [hfm, List.flatMap_map, List.map_flatMap]
    show ch.flatMap (fun v =>
        (mkCtx v (i :: anc) (lvl + 1) :: descKLevel (ctxList t)
          (mkCtx v (i :: anc) (lvl + 1)) k).map Ctx.id) = _
    show _ = hopDescWithin (k + 1) (CTree.node i c p ch)
    unfold hopDescWithin
    rw [hopDescForest_eq]
    apply List.flatMap_congr
    intro v hv
    rw [List.map_cons]
    have := ih (v, i :: anc, lvl + 1) (hclose v hv)
    simp only at this
    rw [this]
    rfl

end KCE
namespace KCE

/-- The ancestor half of the neighbourhood resolves, id for id, to the
first `k` entries of the concept's ancestor chain. -/
theorem ancKLevel_ids (t : CTree) (c : Ctx) (hc : c ∈ ctxList t) (k : Nat) :
    (ancKLevel (ctxList t) c k).map Ctx.id = c.anc.take k ∧
      ∀ e ∈ ancKLevel (ctxList t) c k, e ∈ ctxList t := by
  have hanc : ∀ a ∈ c.anc, ∃ e ∈ ctxList t, e.id = a := by
    intro a ha
    obtain ⟨inner, hinner, hinnermem⟩ := ctx_anc_structure t [] 1 c hc
    rw [hinner, List.append_nil] at ha
    have : a ∈ CTree.ids t := hinnermem a ha
    rw [← conceptIds_eq_ids] at this
    unfold conceptIds at this
    obtain ⟨e, he, heq⟩ := List.mem_map.mp this
    exact ⟨e, he, heq⟩
  have hres : ∀ a ∈ c.anc.take k, ∃ e ∈ ctxList t, e.id = a :=
    fun a ha => hanc a (List.mem_of_mem_take ha)
  exact map_id_filterMap_lookup (ctxList t) (c.anc.take k) hres

/-- First-occurrence dedup commutes with an injective-on-the-list map. -/
theorem map_dedupFAux_inj {α β : Type} [DecidableEq α] [DecidableEq β]
    (f : α → β) :
    ∀ (l seen : List α),
      (∀ x ∈ l, ∀ y ∈ l ++ seen, f x = f y → x = y) →
      (dedupFAux seen l).map f = dedupFAux (seen.map f) (l.map f) := by
  intro l
  induction l with
  | nil => intro seen _; rfl
  | cons a rest ih =>
    intro seen hinj
    have hmemiff : (a ∈ seen) ↔ (f a ∈ seen.map f) := by
      constructor
      · exact fun h => List.mem_map_of_mem f h
      · intro h
        obtain ⟨y, hy, hfy⟩ := List.mem_map.mp h
        have := hinj a (by simp) y (List.mem_append_right _ hy) hfy.symm
        exact this ▸ hy
    rw [List.map_cons]
    show (dedupFAux seen (a :: rest)).map f =
      dedupFAux (seen.map f) (f a :: rest.map f)
    unfold dedupFAux
    by_cases h : a ∈ seen
    · rw [if_pos h, if_pos (hmemiff.mp h)]
      exact ih seen (fun x hx y hy => hinj x (by simp [hx]) y
        (by rcases List.mem_append.mp hy with h1 | h1
            · exact List.mem_append_left _ (by simp [h1])
            · exact List.mem_append_right _ h1))
    · rw [if_neg h, if_neg (fun hmem => h (hmemiff.mpr hmem))]
      rw [List.map_cons]
      congr 1
      rw [ih (a :: seen) (fun x hx y hy => hinj x (by simp [hx]) y
        (by rcases List.mem_append.mp hy with h1 | h1
            · exact List.mem_append_left _ (by simp [h1])
            · rcases List.mem_cons.mp h1 with rfl | h2
              · exact List.mem_append_left _ (by simp)
              · exact List.mem_append_right _ h2))]
      rw [List.map_cons]

theorem map_dedupF_inj {α β : Type} [DecidableEq α] [DecidableEq β]
    (f : α → β) (l : List α)
    (hinj : ∀ x ∈ l, ∀ y ∈ l, f x = f y → x = y) :
    (dedupF l).map f = dedupF (l.map f) := by
  unfold dedupF
  rw [map_dedupFAux_inj f l []
    (fun x hx y hy => hinj x hx y (by simpa using hy))]
  rfl

end KCE
namespace KCE

/-- The root position of a subtree traversal is a position. -/
theorem self_mem_positionsAux (t : CTree) (anc : List String) (lvl : Nat) :
    (t, anc, lvl) ∈ positionsAux t anc lvl := by
  match t with
  | .node i c p ch =>
    unfold positionsAux
    exact List.mem_cons_self _ _

/-- C8 (amended): the neighbourhood `getNearestConceptsKLevel(2, c)`
used by `localDensity` consists of the concept **itself** together with
all of its descendants within 2 edge-hops and its ancestors within 2
edge-hops (the first two entries of the ancestor chain), each node
included at most once (`union` semantics). -/
theorem C8_neighbourhood (t : CTree) (hnd : (conceptIds t).Nodup)
    (pos : CTree × List String × Nat) (hpos : pos ∈ positions t) :
    ((nearestKLevel (ctxList t) 2 (mkCtx pos.1 pos.2.1 pos.2.2)).map Ctx.id =
      dedupF (pos.1.topId :: (hopDescWithin 2 pos.1 ++ pos.2.1.take 2))) ∧
    ((nearestKLevel (ctxList t) 2 (mkCtx pos.1 pos.2.1 pos.2.2)).map Ctx.id).Nodup ∧
    (∀ x, x ∈ (nearestKLevel (ctxList t) 2 (mkCtx pos.1 pos.2.1 pos.2.2)).map Ctx.id ↔
      (x = pos.1.topId ∨ x ∈ hopDescWithin 2 pos.1 ∨ x ∈ pos.2.1.take 2)) := by
  have hnd2 : (CTree.ids t).Nodup := by rw [← conceptIds_eq_ids]; exact hnd
  set c := mkCtx pos.1 pos.2.1 pos.2.2 with hc
  have hcmem : c ∈ ctxList t := mkCtx_mem_ctxList t pos hpos
  have hndmap : ((ctxList t).map Ctx.id).Nodup := hnd
  have hinj := List.inj_on_of_nodup_map hndmap
  have hdesc := descKLevel_ids t hnd2 2 pos hpos
  have hancp := ancKLevel_ids t c hcmem 2
  have hpre : ∀ e ∈ c :: (descKLevel (ctxList t) c 2 ++ ancKLevel (ctxList t) c 2),
      e ∈ ctxList t := by
    intro e he
    rcases List.mem_cons.mp he with rfl | he2
    · exact hcmem
    · rcases List.mem_append.mp he2 with h1 | h1
      · exact descKLevel_mem (ctxList t) 2 c e h1
      · exact hancp.2 e h1
  have hkey : (nearestKLevel (ctxList t) 2 c).map Ctx.id =
      dedupF (pos.1.topId :: (hopDescWithin 2 pos.1 ++ pos.2.1.take 2)) := by
    unfold nearestKLevel
    rw [map_dedupF_inj Ctx.id _
      (fun x hx y hy hxy => hinj (hpre x hx) (hpre y hy) hxy)]
    rw [List.map_cons, List.map_append]
    rw [← hc] at hdesc
    rw [hdesc, hancp.1]
    have hcid : c.id = pos.1.topId := rfl
    have hcanc : c.anc = pos.2.1 := rfl
    rw [hcid, hcanc]
  refine ⟨hkey, ?_, ?_⟩
  · rw [hkey]; exact nodup_dedupF _
  · intro x
    rw [hkey, mem_dedupF, List.mem_cons, List.mem_append]

/-- C8 (counterexample): the claim says the neighbourhood "consists of
all ancestors and descendants within radius 2"; on the one-concept tree
the neighbourhood contains the concept itself although its ancestor and
descendant sets within radius 2 are empty. -/
theorem C8_counterexample :
    "http://x#a" ∈ (nearestKLevel (ctxList exSingle) 2
      (mkCtx exSingle [] 1)).map Ctx.id ∧
    hopDescWithin 2 exSingle ++ (mkCtx exSingle [] 1).anc.take 2 = [] := by
  constructor
  · decide
  · decide

/-- C8 (witness): the amended description instantiated at the root of
the chain fixture. -/
theorem C8_witness :
    (conceptIds exChain).Nodup ∧
    ((exChain, [], 1) : CTree × List String × Nat) ∈ positions exChain ∧
    (((nearestKLevel (ctxList exChain) 2 (mkCtx exChain [] 1)).map Ctx.id =
      dedupF (exChain.topId :: (hopDescWithin 2 exChain ++ ([] : List String).take 2))) ∧
    ((nearestKLevel (ctxList exChain) 2 (mkCtx exChain [] 1)).map Ctx.id).Nodup ∧
    (∀ x, x ∈ (nearestKLevel (ctxList exChain) 2 (mkCtx exChain [] 1)).map Ctx.id ↔
      (x = exChain.topId ∨ x ∈ hopDescWithin 2 exChain ∨ x ∈ ([] : List String).take 2))) :=
  ⟨by decide, by unfold positions; exact self_mem_positionsAux exChain [] 1,
    C8_neighbourhood exChain (by decide) (exChain, [], 1)
      (by unfold positions; exact self_mem_positionsAux exChain [] 1)⟩

/-! ## Upper bounds along the scoring pipeline

The source's comment in `findConceptWithWorstOverallScore` asserts that
"The overall score value never exceed 2".  The following chain of bounds
makes that precise: every *finite* (non-NaN) value the pipeline writes
is below 2, the NaN cases being exactly the unguarded 0/0 divisions. -/

theorem nameSimplicity_bounds (i : String) :
    0 ≤ nameSimplicity i ∧ nameSimplicity i ≤ 13 / 10 := by
  unfold nameSimplicity NC_CONSTANT
  have hm : (0 : ℚ) ≤ (countCompound (uri2name i.data) : ℚ) := Nat.cast_nonneg _
  split
  · exact ⟨le_refl 0, by norm_num⟩
  next h =>
    push_neg at h
    exact ⟨h, by nlinarith⟩

theorem stepMaxQ_ge_init (m : ℚ) (x : JNum) : m ≤ stepMaxQ m x := by
  cases x with
  | none => exact le_refl m
  | some q =>
    simp only [stepMaxQ]
    split
    next h => exact le_of_lt h
    next h => exact le_refl m

theorem stepMaxQ_ge_val (m q : ℚ) : q ≤ stepMaxQ m (some q) := by
  simp only [stepMaxQ]
  split
  next h => exact le_refl q
  next h => exact le_of_not_lt h

theorem foldl_stepMaxQ_init_le {α : Type} (g : α → JNum) :
    ∀ (l : List α) (a : ℚ), a ≤ l.foldl (fun m c => stepMaxQ m (g c)) a
  | [], a => le_refl a
  | x :: l, a =>
    le_trans (stepMaxQ_ge_init a (g x)) (foldl_stepMaxQ_init_le g l _)

theorem foldl_stepMaxQ_ge {α : Type} (g : α → JNum) :
    ∀ (l : List α) (a : ℚ) (c : α), c ∈ l → ∀ q, g c = some q →
      q ≤ l.foldl (fun m c => stepMaxQ m (g c)) a := by
  intro l
  induction l with
  | nil => intro a c hc; cases hc
  | cons x tl ih =>
    intro a c hc q hq
    rw [List.foldl_cons]
    rcases List.mem_cons.mp hc with rfl | hmem
    · exact le_trans (by rw [hq]; exact stepMaxQ_ge_val a q)
        (foldl_stepMaxQ_init_le g tl _)
    · exact ih _ c hmem q hq

theorem foldl_natMax_init_le {α : Type} (f : α → Nat) :
    ∀ (l : List α) (a : Nat), a ≤ l.foldl (fun m c => max m (f c)) a
  | [], a => le_refl a
  | x :: l, a =>
    le_trans (Nat.le_max_left a (f x)) (foldl_natMax_init_le f l _)

theorem foldl_natMax_ge {α : Type} (f : α → Nat) :
    ∀ (l : List α) (a : Nat) (c : α), c ∈ l →
      f c ≤ l.foldl (fun m c => max m (f c)) a := by
  intro l
  induction l with
  | nil => intro a c hc; cases hc
  | cons x tl ih =>
    intro a c hc
    rw [List.foldl_cons]
    rcases List.mem_cons.mp hc with rfl | hmem
    · exact le_trans (Nat.le_max_right a (f c)) (foldl_natMax_init_le f tl _)
    · exact ih _ c hmem

theorem foldl_mono_init {α : Type} (f : ℚ → α → ℚ) (hstep : ∀ m x, m ≤ f m x) :
    ∀ (l : List α) (a : ℚ), a ≤ l.foldl f a
  | [], a => le_refl a
  | x :: l, a => le_trans (hstep a x) (foldl_mono_init f hstep l _)

theorem foldl_mono_elem {α : Type} (f : ℚ → α → ℚ) (hstep : ∀ m x, m ≤ f m x) :
    ∀ (l : List α) (a : ℚ) (c : α), c ∈ l → ∀ q, (∀ m, q ≤ f m c) →
      q ≤ l.foldl f a := by
  intro l
  induction l with
  | nil => intro a c hc; cases hc
  | cons x tl ih =>
    intro a c hc q hq
    rw [List.foldl_cons]
    rcases List.mem_cons.mp hc with rfl | hmem
    · exact le_trans (hq a) (foldl_mono_init f hstep tl _)
    · exact ih _ c hmem q hq

theorem jdivq_some (a d : ℚ) :
    jdivq (some a) d = if d = 0 then none else some (a / d) := rfl

/-- A finite `basicLevel` of a listed concept is at most 1: its vote
count never exceeds the maximum vote count. -/
theorem basicLevel_le_one (paths : List (List String)) (cs : List Ctx) (c : Ctx)
    (hc : c ∈ cs) (b : ℚ) (hb : basicLevel paths cs c = some b) : b ≤ 1 := by
  unfold basicLevel qdiv at hb
  split at hb
  · exact Option.noConfusion hb
  next hne =>
    injection hb with hb
    subst hb
    have hle : (basicLevelCount paths c.id : ℚ) ≤ (maxBasicLevel paths cs : ℚ) :=
      Nat.cast_le.mpr (foldl_natMax_ge (fun c => basicLevelCount paths c.id) cs 0 c hc)
    have hpos : (0 : ℚ) < (maxBasicLevel paths cs : ℚ) :=
      lt_of_le_of_ne (Nat.cast_nonneg _) (Ne.symm hne)
    exact (div_le_one hpos).mpr hle

/-- A finite `ncValue` of a listed concept is at most
`0.66 · 1 + 0.33 · 1.3 = 1.089`. -/
theorem ncValue_bound (paths : List (List String)) (cs : List Ctx) (c : Ctx)
    (hc : c ∈ cs) (v : ℚ) (hv : ncValue paths cs c = some v) : v ≤ 1089 / 1000 := by
  unfold ncValue at hv
  cases hbl : basicLevel paths cs c with
  | none => rw [hbl] at hv; simp [jmul, jadd] at hv
  | some b =>
    rw [hbl] at hv
    simp only [jmul, jadd] at hv
    injection hv with hv
    subst hv
    have h1 : b ≤ 1 := basicLevel_le_one paths cs c hc b hbl
    have h2 := (nameSimplicity_bounds c.id).2
    unfold WEIGHT_BASIC_LEVEL WEIGHT_NAME_SIMPLICITY
    linarith

/-- A finite `globalDensity` of a listed concept is at most 1. -/
theorem globalDensity_le_one (cs : List Ctx) (c : Ctx) (hc : c ∈ cs) (g : ℚ)
    (hg : globalDensity cs c = some g) : g ≤ 1 := by
  unfold globalDensity qdiv at hg
  split at hg
  · exact Option.noConfusion hg
  next hne =>
    injection hg with hg
    subst hg
    have hle : aGlobalDensity c ≤ maxAGlobalDensity cs :=
      foldl_stepMaxQ_ge (fun c => some (aGlobalDensity c)) cs 0 c hc _ rfl
    have hpos : 0 < maxAGlobalDensity cs :=
      lt_of_le_of_ne
        (foldl_stepMaxQ_init_le (fun c => some (aGlobalDensity c)) cs 0)
        (Ne.symm hne)
    exact (div_le_one hpos).mpr hle

/-- The concept itself is a member of its own `k`-level neighbourhood
(the source pushes it first). -/
theorem self_mem_nearestKLevel (cs : List Ctx) (k : Nat) (c : Ctx) :
    c ∈ nearestKLevel cs k c := by
  unfold nearestKLevel
  exact (mem_dedupF _ _).mpr (List.mem_cons_self _ _)

/-- A finite global density of a concept never exceeds the weighted
running maximum over its own neighbourhood: the concept appears there at
distance 0, hence with weight 1. -/
theorem le_maxWeighted (cs : List Ctx) (c : Ctx) (g : ℚ)
    (hg : globalDensity cs c = some g) : g ≤ maxWeighted cs c := by
  have hval : jmul (1 - RATIO_DISTANCE * |(c.level : ℚ) - (c.level : ℚ)|)
      (globalDensity cs c) = some g := by
    rw [hg]
    simp [jmul]
  unfold maxWeighted
  refine foldl_mono_elem _ (fun m x => stepMaxQ_ge_init m _) _ 0 c
    (self_mem_nearestKLevel cs 2 c) g (fun m => ?_)
  rw [hval]
  exact stepMaxQ_ge_val m g

theorem maxWeighted_nonneg (cs : List Ctx) (c : Ctx) : 0 ≤ maxWeighted cs c := by
  unfold maxWeighted
  exact foldl_mono_init _ (fun m x => stepMaxQ_ge_init m _) _ 0

/-- A finite `localDensity` of a listed concept is at most
`1 + 0.5 · 1 = 1.5`. -/
theorem localDensity_bound (cs : List Ctx) (c : Ctx) (hc : c ∈ cs) (w : ℚ)
    (hw : localDensity cs c = some w) : w ≤ 3 / 2 := by
  unfold localDensity at hw
  cases hg : globalDensity cs c with
  | none => rw [hg] at hw; simp [jdivq, jmul, jadd] at hw
  | some g =>
    rw [hg, jdivq_some] at hw
    split at hw
    · simp [jmul, jadd] at hw
    next hne =>
      simp only [jmul, jadd] at hw
      injection hw with hw
      subst hw
      have hg1 : g ≤ 1 := globalDensity_le_one cs c hc g hg
      have hle : g ≤ maxWeighted cs c := le_maxWeighted cs c g hg
      have hpos : 0 < maxWeighted cs c :=
        lt_of_le_of_ne (maxWeighted_nonneg cs c) (Ne.symm hne)
      have hdiv : g / maxWeighted cs c ≤ 1 := (div_le_one hpos).mpr hle
      unfold WEIGHT_GDL
      linarith

/-- A finite `density` of a listed concept is at most
`0.08 · 1 + 0.32 · 1.5 = 0.56`. -/
theorem density_bound (cs : List Ctx) (c : Ctx) (hc : c ∈ cs) (v : ℚ)
    (hv : density cs c = some v) : v ≤ 56 / 100 := by
  unfold density at hv
  cases hg : globalDensity cs c with
  | none => rw [hg] at hv; simp [jmul, jadd] at hv
  | some g =>
    cases hl : localDensity cs c with
    | none => rw [hg, hl] at hv; simp [jmul, jadd] at hv
    | some w =>
      rw [hg, hl] at hv
      simp only [jmul, jadd] at hv
      injection hv with hv
      subst hv
      have h1 := globalDensity_le_one cs c hc g hg
      have h2 := localDensity_bound cs c hc w hl
      unfold WEIGHT_GLOBAL_DENSITY WEIGHT_LOCAL_DENSITY
      linarith

/-- A finite composite `score` of a listed concept is at most
`1.089 + 0.56 = 1.649`. -/
theorem scoreOf_bound (t : CTree) (c : Ctx) (hc : c ∈ ctxList t) (v : ℚ)
    (hv : scoreOf t c = some v) : v ≤ 1649 / 1000 := by
  unfold scoreOf at hv
  cases hn : ncValue (treePaths t) (ctxList t) c with
  | none => rw [hn] at hv; simp [jadd] at hv
  | some a =>
    cases hd : density (ctxList t) c with
    | none => rw [hn, hd] at hv; simp [jadd] at hv
    | some b =>
      rw [hn, hd] at hv
      simp only [jadd] at hv
      injection hv with hv
      subst hv
      have h1 := ncValue_bound (treePaths t) (ctxList t) c hc a hn
      have h2 := density_bound (ctxList t) c hc b hd
      linarith

/-- A finite `overallScore` of a member of a concept set lying in the
tree is strictly below 2 (indeed at most `0.6 + 0.4 · 1.649 = 1.2596`):
finiteness already forces the maximum contribution to be non-zero and
the `score` to be finite. -/
theorem overallScore_lt_two (t : CTree) (S : List Ctx) (c : Ctx)
    (hcS : c ∈ S) (hct : c ∈ ctxList t) (q : ℚ)
    (hq : overallScore t S c = some q) : q < 2 := by
  unfold overallScore qdiv at hq
  split at hq
  · simp [jmul, jadd] at hq
  next hne =>
    cases hs : scoreOf t c with
    | none => rw [hs] at hq; simp [jmul, jadd] at hq
    | some v =>
      rw [hs] at hq
      simp only [jmul, jadd] at hq
      injection hq with hq
      subst hq
      have hmax0 : (0 : ℚ) < (maxContribution S : ℚ) :=
        lt_of_le_of_ne (Nat.cast_nonneg _) (Ne.symm hne)
      have hle : (contribution S c : ℚ) ≤ (maxContribution S : ℚ) :=
        Nat.cast_le.mpr (foldl_natMax_ge (fun c => contribution S c) S 0 c hcS)
      have hdiv : (contribution S c : ℚ) / (maxContribution S : ℚ) ≤ 1 :=
        (div_le_one hmax0).mpr hle
      have hv := scoreOf_bound t c hct v hs
      unfold WEIGHT_CO WEIGHT_CR
      linarith

/-! ## The worst-member scan -/

theorem worstStep_eq (ov : Ctx → JNum) (acc : ℚ × Option Ctx) (c : Ctx) :
    worstStep ov acc c = acc ∨
      ∃ q, ov c = some q ∧ q < acc.1 ∧ worstStep ov acc c = (q, some c) := by
  unfold worstStep
  cases hov : ov c with
  | none => exact Or.inl rfl
  | some q =>
    by_cases hlt : q < acc.1
    · exact Or.inr ⟨q, rfl, hlt, if_pos hlt⟩
    · exact Or.inl (if_neg hlt)

theorem worstFold_mem (ov : Ctx → JNum) :
    ∀ (l : List Ctx) (acc : ℚ × Option Ctx) (w : Ctx),
      (l.foldl (worstStep ov) acc).2 = some w → acc.2 = some w ∨ w ∈ l := by
  intro l
  induction l with
  | nil => exact fun acc w h => Or.inl h
  | cons x tl ih =>
    intro acc w h
    rw [List.foldl_cons] at h
    rcases ih _ w h with hacc | hmem
    · rcases worstStep_eq ov acc x with heq | ⟨q, _, _, heq⟩
      · rw [heq] at hacc
        exact Or.inl hacc
      · rw [heq] at hacc
        have hacc' : some x = some w := hacc
        injection hacc' with hxw
        exact Or.inr (hxw ▸ List.mem_cons_self x tl)
    · exact Or.inr (List.mem_cons_of_mem x hmem)

theorem worstFold_inv (ov : Ctx → JNum) :
    ∀ (l : List Ctx) (acc : ℚ × Option Ctx),
      acc.1 ≤ 2 → (∀ w, acc.2 = some w → ∃ q, ov w = some q ∧ q < 2) →
      (l.foldl (worstStep ov) acc).1 ≤ 2 ∧
        ∀ w, (l.foldl (worstStep ov) acc).2 = some w →
          ∃ q, ov w = some q ∧ q < 2 := by
  intro l
  induction l with
  | nil => exact fun acc h1 h2 => ⟨h1, h2⟩
  | cons x tl ih =>
    intro acc h1 h2
    rw [List.foldl_cons]
    rcases worstStep_eq ov acc x with heq | ⟨q, hov, hlt, heq⟩
    · rw [heq]
      exact ih acc h1 h2
    · rw [heq]
      refine ih _ (le_trans (le_of_lt hlt) h1) ?_
      intro w hw
      have hw' : some x = some w := hw
      injection hw' with hxw
      exact ⟨q, hxw ▸ hov, lt_of_lt_of_le hlt h1⟩

theorem worstFold_keeps_some (ov : Ctx → JNum) :
    ∀ (l : List Ctx) (acc : ℚ × Option Ctx) (w : Ctx), acc.2 = some w →
      ∃ w', (l.foldl (worstStep ov) acc).2 = some w' := by
  intro l
  induction l with
  | nil => exact fun acc w h => ⟨w, h⟩
  | cons x tl ih =>
    intro acc w h
    rw [List.foldl_cons]
    rcases worstStep_eq ov acc x with heq | ⟨q, _, _, heq⟩
    · rw [heq]
      exact ih acc w h
    · rw [heq]
      exact ih _ x rfl

theorem worstFold_some (ov : Ctx → JNum) :
    ∀ (l : List Ctx) (acc : ℚ × Option Ctx),
      ((∃ w, acc.2 = some w) ∨ ∃ c ∈ l, ∃ q, ov c = some q ∧ q < acc.1) →
      ∃ w, (l.foldl (worstStep ov) acc).2 = some w := by
  intro l
  induction l with
  | nil =>
    intro acc h
    rcases h with ⟨w, hw⟩ | ⟨c, hc, _⟩
    · exact ⟨w, hw⟩
    · cases hc
  | cons x tl ih =>
    intro acc h
    rw [List.foldl_cons]
    rcases h with ⟨w, hw⟩ | ⟨c, hc, q, hov, hlt⟩
    · rcases worstStep_eq ov acc x with heq | ⟨q, _, _, heq⟩
      · rw [heq]
        exact ih acc (Or.inl ⟨w, hw⟩)
      · rw [heq]
        exact worstFold_keeps_some ov tl _ x rfl
    · rcases List.mem_cons.mp hc with rfl | hmem
      · have hstep : worstStep ov acc c = (q, some c) := by
          unfold worstStep
          rw [hov]
          exact if_pos hlt
        rw [hstep]
        exact worstFold_keeps_some ov tl _ c rfl
      · rcases worstStep_eq ov acc x with heq | ⟨q', _, _, heq⟩
        · rw [heq]
          exact ih acc (Or.inr ⟨c, hmem, q, hov, hlt⟩)
        · rw [heq]
          exact worstFold_keeps_some ov tl _ x rfl

theorem findWorst_eq_worstFold (S : List Ctx) (ov : Ctx → JNum) :
    findWorst S ov = (S.foldl (worstStep ov) ((2 : ℚ), (none : Option Ctx))).2 :=
  rfl

/-- A successful worst-member scan returns a member of the set whose
stored score is a finite value below 2. -/
theorem findWorst_some_spec (S : List Ctx) (ov : Ctx → JNum) (w : Ctx)
    (h : findWorst S ov = some w) :
    w ∈ S ∧ ∃ q, ov w = some q ∧ q < 2 := by
  rw [findWorst_eq_worstFold] at h
  have hmem := worstFold_mem ov S _ w h
  have hinv := (worstFold_inv ov S ((2 : ℚ), (none : Option Ctx)) (le_refl 2)
    (fun w hw => Option.noConfusion hw)).2 w h
  rcases hmem with hacc | hmem
  · exact Option.noConfusion hacc
  · exact ⟨hmem, hinv⟩

/-- Any member with a finite stored score below the sentinel 2 makes the
worst-member scan succeed. -/
theorem findWorst_some_of_mem (S : List Ctx) (ov : Ctx → JNum) (c : Ctx)
    (hc : c ∈ S) (q : ℚ) (hq : ov c = some q) (hlt : q < 2) :
    ∃ w, findWorst S ov = some w := by
  rw [findWorst_eq_worstFold]
  exact worstFold_some ov S ((2 : ℚ), (none : Option Ctx))
    (Or.inr ⟨c, hc, q, hq, hlt⟩)

/-! ## NaN bookkeeping for sums and averages -/

theorem foldl_jadd_none : ∀ (l : List JNum), l.foldl jadd none = none
  | [] => rfl
  | x :: l => by
    rw [List.foldl_cons]
    have hx : jadd none x = none := by cases x <;> rfl
    rw [hx]
    exact foldl_jadd_none l

theorem foldl_jadd_none_mem :
    ∀ (l : List JNum) (a : JNum), none ∈ l → l.foldl jadd a = none := by
  intro l
  induction l with
  | nil => intro a h; cases h
  | cons x tl ih =>
    intro a h
    rw [List.foldl_cons]
    rcases List.mem_cons.mp h with hx | hmem
    · rw [← hx]
      have ha : jadd a none = none := by cases a <;> rfl
      rw [ha]
      exact foldl_jadd_none tl
    · exact ih _ hmem

/-- A finite sum has only finite summands. -/
theorem jsum_ne_none_mem (l : List JNum) (h : jsum l ≠ none) :
    ∀ x ∈ l, ∃ q, x = some q := by
  intro x hx
  cases hq : x with
  | some q => exact ⟨q, rfl⟩
  | none => exact absurd (foldl_jadd_none_mem l (some 0) (hq ▸ hx)) h

/-- A finite average is over a non-empty list of finite values. -/
theorem javg_ne_none {α : Type} (f : α → JNum) (l : List α)
    (h : javg f l ≠ none) : l ≠ [] ∧ ∀ c ∈ l, ∃ q, f c = some q := by
  constructor
  · intro hnil
    subst hnil
    exact h (by simp [javg, jsum, jdivq])
  · intro c hc
    have hs : jsum (l.map f) ≠ none := by
      intro h0
      apply h
      unfold javg
      rw [h0]
      rfl
    exact jsum_ne_none_mem (l.map f) hs (f c) (List.mem_map_of_mem f hc)

/-! ## C9 — the worst-member search on a scored non-empty set -/

/-- C9 (amended): when the scored set is non-empty, lies in the tree,
has a positive maximum contribution and every member's composite
`score` is finite, then every member's freshly computed `overallScore`
is a finite value strictly below 2 and
`findConceptWithWorstOverallScore` — which starts from the sentinel 2 —
returns an actual member of the set.  Without these premises the claim
fails: a set whose members cover nothing beyond each other has
`maxContribution = 0`, every `overallScore` is NaN, and the search
returns `undefined` (see the counterexample). -/
theorem C9_worst_member (t : CTree) (S : List Ctx) (hne : S ≠ [])
    (hmem : ∀ c ∈ S, c ∈ ctxList t) (hmax : 0 < maxContribution S)
    (hreal : ∀ c ∈ S, scoreOf t c ≠ none) :
    (∀ c ∈ S, ∃ q, overallScore t S c = some q ∧ q < 2) ∧
      ∃ w, findWorst S (overallScore t S) = some w ∧ w ∈ S := by
  have hmaxne : ((maxContribution S : ℚ)) ≠ 0 := by
    have h0 : (0 : ℚ) < (maxContribution S : ℚ) := by exact_mod_cast hmax
    exact ne_of_gt h0
  have hall : ∀ c ∈ S, ∃ q, overallScore t S c = some q ∧ q < 2 := by
    intro c hc
    obtain ⟨v, hv⟩ : ∃ v, scoreOf t c = some v := by
      cases hs : scoreOf t c with
      | none => exact absurd hs (hreal c hc)
      | some v => exact ⟨v, rfl⟩
    have hsome : overallScore t S c =
        some (WEIGHT_CO * ((contribution S c : ℚ) / (maxContribution S : ℚ)) +
          WEIGHT_CR * v) := by
      unfold overallScore qdiv
      rw [if_neg hmaxne, hv]
      rfl
    exact ⟨_, hsome, overallScore_lt_two t S c hc (hmem c hc) _ hsome⟩
  obtain ⟨c, hc⟩ : ∃ c, c ∈ S := by
    cases S with
    | nil => exact absurd rfl hne
    | cons x tl => exact ⟨x, List.mem_cons_self x tl⟩
  obtain ⟨q, hq, hlt⟩ := hall c hc
  obtain ⟨w, hw⟩ := findWorst_some_of_mem S _ c hc q hq hlt
  exact ⟨hall, w, hw, (findWorst_some_spec S _ w hw).1⟩

/-- C9 (counterexample): the working set seeded by
`extractKeyConcepts(2)` on the three-node chain is non-empty and lies in
the tree, yet its maximum contribution is 0, every member's
`overallScore` is NaN (not a value below 2), and the worst-member search
returns `undefined` — refuting the claim that it always returns a
member. -/
theorem C9_counterexample :
    exChainBest2 ≠ [] ∧
      (∀ c ∈ exChainBest2, c ∈ ctxList exChain) ∧
      maxContribution exChainBest2 = 0 ∧
      (∀ c ∈ exChainBest2, overallScore exChain exChainBest2 c = none) ∧
      findWorst exChainBest2 (overallScore exChain exChainBest2) = none := by
  refine ⟨by decide, by decide, by decide, by decide, by decide⟩

/-- Witness for C9 on the concrete singleton set holding the leaf of the
chain fixture: there the premises hold and the search succeeds. -/
theorem C9_witness :
    (∀ c ∈ (ctxList exChain).drop 2,
        ∃ q, overallScore exChain ((ctxList exChain).drop 2) c = some q ∧ q < 2) ∧
      ∃ w, findWorst ((ctxList exChain).drop 2)
          (overallScore exChain ((ctxList exChain).drop 2)) = some w ∧
        w ∈ (ctxList exChain).drop 2 :=
  C9_worst_member exChain ((ctxList exChain).drop 2) (by decide) (by decide)
    (by decide) (by decide)

/-! ## The selection loop of `extractKeyConcepts` -/

theorem jltB_none_left (x : JNum) : jltB none x = false := by cases x <;> rfl

theorem jltB_true_some {x y : JNum} (h : jltB x y = true) :
    (∃ a, x = some a) ∧ ∃ b, y = some b := by
  cases x with
  | none => rw [jltB_none_left] at h; exact absurd h (by simp)
  | some a =>
    cases y with
    | none => exact absurd h (by simp [jltB])
    | some b => exact ⟨⟨a, rfl⟩, ⟨b, rfl⟩⟩

theorem kceCandidate_of_worst_some (st : KState) (r w : Ctx)
    (h : findWorst st.best st.ov = some w) :
    kceCandidate st r = jsUnion (st.best.filter (fun c => c ≠ w)) [r] := by
  unfold kceCandidate
  rw [h]

theorem kceStep_accept (t : CTree) (st : KState) (r : Ctx)
    (h : (jltB st.avgO (avgOverallScore t (kceCandidate st r)) &&
      jleB st.avgC (avgContribution (kceCandidate st r))) = true) :
    kceStep t st r = ⟨kceCandidate st r, avgContribution (kceCandidate st r),
      avgOverallScore t (kceCandidate st r),
      fun c => if c ∈ kceCandidate st r then overallScore t (kceCandidate st r) c
        else st.ov c⟩ := by
  simp only [kceStep, h, if_true]

theorem kceStep_reject (t : CTree) (st : KState) (r : Ctx)
    (h : ¬((jltB st.avgO (avgOverallScore t (kceCandidate st r)) &&
      jleB st.avgC (avgContribution (kceCandidate st r))) = true)) :
    kceStep t st r = ⟨st.best, st.avgC, st.avgO,
      fun c => if c ∈ kceCandidate st r then overallScore t (kceCandidate st r) c
        else st.ov c⟩ := by
  simp only [kceStep, h, Bool.false_eq_true, if_false]

/-- Removing one occurrence from a duplicate-free list by filtering
shortens it by exactly one. -/
theorem length_filter_ne_nodup {α : Type} [DecidableEq α] :
    ∀ (l : List α) (w : α), l.Nodup → w ∈ l →
      (l.filter (fun c => c ≠ w)).length + 1 = l.length := by
  intro l
  induction l with
  | nil => intro w _ hw; cases hw
  | cons x tl ih =>
    intro w hnd hw
    rw [List.filter_cons]
    rcases List.mem_cons.mp hw with rfl | hmem
    · rw [if_neg (by simp)]
      have hx : w ∉ tl := (List.nodup_cons.mp hnd).1
      have heq : tl.filter (fun c => c ≠ w) = tl := by
        rw [List.filter_eq_self]
        intro a ha
        simp only [ne_eq, decide_not, Bool.not_eq_eq_eq_not, Bool.not_true,
          decide_eq_false_iff_not]
        exact fun h => hx (h ▸ ha)
      rw [heq, List.length_cons]
    · have hxw : x ≠ w := by
        intro h
        exact (List.nodup_cons.mp hnd).1 (h ▸ hmem)
      rw [if_pos (by simp [hxw])]
      rw [List.length_cons, List.length_cons,
        ih w (List.nodup_cons.mp hnd).2 hmem]

/-- One iteration of the selection loop preserves the shape of the
working set: when the remainder concept is new and the set lies in the
tree with duplicate-free ids, the result again has duplicate-free ids,
the same size, lies in the tree, only ever adds the remainder concept's
id, and keeps the coupling between a finite stored average and a
successful worst-member scan. -/
theorem kceStep_invariant (t : CTree) (st : KState) (r : Ctx)
    (hnd : (st.best.map Ctx.id).Nodup)
    (hsub : ∀ c ∈ st.best, c ∈ ctxList t)
    (hworst : st.avgO ≠ none → ∃ w, findWorst st.best st.ov = some w ∧ w ∈ st.best)
    (hr : r.id ∉ st.best.map Ctx.id) (hrt : r ∈ ctxList t) :
    ((kceStep t st r).best.map Ctx.id).Nodup ∧
      (kceStep t st r).best.length = st.best.length ∧
      (∀ c ∈ (kceStep t st r).best, c ∈ ctxList t) ∧
      ((kceStep t st r).avgO ≠ none →
        ∃ w, findWorst (kceStep t st r).best (kceStep t st r).ov = some w ∧
          w ∈ (kceStep t st r).best) ∧
      (∀ i ∈ (kceStep t st r).best.map Ctx.id,
        i ∈ st.best.map Ctx.id ∨ i = r.id) := by
  have hrb : r ∉ st.best := fun hmem => hr (List.mem_map_of_mem Ctx.id hmem)
  have hbnd : st.best.Nodup := List.Nodup.of_map Ctx.id hnd
  by_cases hacc : (jltB st.avgO (avgOverallScore t (kceCandidate st r)) &&
      jleB st.avgC (avgContribution (kceCandidate st r))) = true
  · -- accepted: the candidate set replaces the working set
    have hlt : jltB st.avgO (avgOverallScore t (kceCandidate st r)) = true := by
      rw [Bool.and_eq_true] at hacc
      exact hacc.1
    obtain ⟨⟨a, ha⟩, ⟨b, hb⟩⟩ := jltB_true_some hlt
    obtain ⟨w, hw, hwmem⟩ := hworst (by simp [ha])
    have hEnd : (st.best.filter (fun c => c ≠ w)).Nodup :=
      List.Nodup.sublist (List.filter_sublist st.best) hbnd
    have hrE : r ∉ st.best.filter (fun c => c ≠ w) :=
      fun hmem => hrb ((List.filter_sublist st.best).subset hmem)
    have hC : kceCandidate st r = st.best.filter (fun c => c ≠ w) ++ [r] := by
      rw [kceCandidate_of_worst_some st r w hw]
      exact jsUnion_singleton _ _ hEnd hrE
    have hCnd : ((kceCandidate st r).map Ctx.id).Nodup := by
      rw [hC, List.map_append, List.nodup_append]
      refine ⟨List.Nodup.sublist
          (List.Sublist.map Ctx.id (List.filter_sublist st.best)) hnd,
        by simp, ?_⟩
      intro i hi
      obtain ⟨c, hc, rfl⟩ := List.mem_map.mp hi
      have hcb : c.id ∈ st.best.map Ctx.id :=
        List.mem_map_of_mem Ctx.id ((List.filter_sublist st.best).subset hc)
      simp only [List.map_cons, List.map_nil, List.mem_singleton]
      intro hcr
      exact hr (hcr ▸ hcb)
    have hClen : (kceCandidate st r).length = st.best.length := by
      rw [hC, List.length_append, List.length_singleton]
      have := length_filter_ne_nodup st.best w hbnd hwmem
      omega
    have hCsub : ∀ c ∈ kceCandidate st r, c ∈ ctxList t := by
      intro c hc
      rw [hC] at hc
      rcases List.mem_append.mp hc with hc | hc
      · exact hsub c ((List.filter_sublist st.best).subset hc)
      · rw [List.mem_singleton.mp hc]
        exact hrt
    have hCids : ∀ i ∈ (kceCandidate st r).map Ctx.id,
        i ∈ st.best.map Ctx.id ∨ i = r.id := by
      intro i hi
      rw [hC, List.map_append] at hi
      rcases List.mem_append.mp hi with hi | hi
      · obtain ⟨c, hc, rfl⟩ := List.mem_map.mp hi
        exact Or.inl (List.mem_map_of_mem Ctx.id
          ((List.filter_sublist st.best).subset hc))
      · right
        simpa using hi
    have hworst' : ∃ w', findWorst (kceCandidate st r)
        (fun c => if c ∈ kceCandidate st r then overallScore t (kceCandidate st r) c
          else st.ov c) = some w' ∧ w' ∈ kceCandidate st r := by
      have hAn : javg (overallScore t (kceCandidate st r)) (kceCandidate st r) ≠
          none := by
        intro h0
        rw [show javg (overallScore t (kceCandidate st r)) (kceCandidate st r) =
          avgOverallScore t (kceCandidate st r) from rfl, hb] at h0
        exact Option.noConfusion h0
      obtain ⟨hCne, hall⟩ := javg_ne_none _ _ hAn
      have hrC : r ∈ kceCandidate st r := by
        rw [hC]
        exact List.mem_append_right _ (List.mem_singleton_self r)
      obtain ⟨q0, hq0⟩ := hall r hrC
      have hq0lt : q0 < 2 :=
        overallScore_lt_two t (kceCandidate st r) r hrC hrt q0 hq0
      have hov1 : (if r ∈ kceCandidate st r
          then overallScore t (kceCandidate st r) r else st.ov r) = some q0 := by
        rw [if_pos hrC]
        exact hq0
      obtain ⟨w', hw'⟩ := findWorst_some_of_mem (kceCandidate st r)
        (fun c => if c ∈ kceCandidate st r then overallScore t (kceCandidate st r) c
          else st.ov c) r hrC q0 hov1 hq0lt
      exact ⟨w', hw', (findWorst_some_spec _ _ w' hw').1⟩
    rw [kceStep_accept t st r hacc]
    exact ⟨hCnd, hClen, hCsub, fun _ => hworst', hCids⟩
  · -- rejected: only the stored overallScore fields change
    rw [kceStep_reject t st r hacc]
    refine ⟨hnd, rfl, hsub, ?_, fun i hi => Or.inl hi⟩
    intro hA
    obtain ⟨w, hw, hwmem⟩ := hworst hA
    obtain ⟨_, q, hq, hqlt⟩ := findWorst_some_spec st.best st.ov w hw
    have hwnC : w ∉ kceCandidate st r := by
      rw [kceCandidate_of_worst_some st r w hw]
      unfold jsUnion
      rw [mem_dedupF]
      intro hmem
      rcases List.mem_append.mp hmem with hmem | hmem
      · have hpred := (List.mem_filter.mp hmem).2
        simp at hpred
      · have hwr : w = r := List.mem_singleton.mp hmem
        exact hrb (hwr ▸ hwmem)
    have hov1w : (if w ∈ kceCandidate st r
        then overallScore t (kceCandidate st r) w else st.ov w) = some q := by
      rw [if_neg hwnC]
      exact hq
    obtain ⟨w', hw'⟩ := findWorst_some_of_mem st.best
      (fun c => if c ∈ kceCandidate st r then overallScore t (kceCandidate st r) c
        else st.ov c) w hwmem q hov1w hqlt
    exact ⟨w', hw', (findWorst_some_spec _ _ w' hw').1⟩

/-- The selection loop never changes the size of the working set and
never introduces a duplicate id, as long as the remainder ids are fresh
and everything lies in the tree. -/
theorem kce_fold_invariant (t : CTree) :
    ∀ (rem : List Ctx) (st : KState),
      (st.best.map Ctx.id).Nodup →
      (∀ c ∈ st.best, c ∈ ctxList t) →
      (st.avgO ≠ none → ∃ w, findWorst st.best st.ov = some w ∧ w ∈ st.best) →
      (rem.map Ctx.id ++ st.best.map Ctx.id).Nodup →
      (∀ c ∈ rem, c ∈ ctxList t) →
      ((rem.foldl (kceStep t) st).best.map Ctx.id).Nodup ∧
        (rem.foldl (kceStep t) st).best.length = st.best.length := by
  intro rem
  induction rem with
  | nil => intro st h1 _ _ _ _; exact ⟨h1, rfl⟩
  | cons r rest ih =>
    intro st h1 h2 h3 h4 h5
    rw [List.map_cons, List.cons_append, List.nodup_cons] at h4
    obtain ⟨hr4, h4t⟩ := h4
    have hrid : r.id ∉ st.best.map Ctx.id := fun hmem =>
      hr4 (List.mem_append_right _ hmem)
    have hrt : r ∈ ctxList t := h5 r (List.mem_cons_self r rest)
    obtain ⟨hnd', hlen', hsub', hworst', hids'⟩ :=
      kceStep_invariant t st r h1 h2 h3 hrid hrt
    rw [List.foldl_cons]
    have hdisj : (rest.map Ctx.id ++ (kceStep t st r).best.map Ctx.id).Nodup := by
      rw [List.nodup_append] at h4t ⊢
      obtain ⟨hrest, _, hdis⟩ := h4t
      refine ⟨hrest, hnd', ?_⟩
      intro i hiRest hiBest
      rcases hids' i hiBest with hiOld | hiR
      · exact hdis hiRest hiOld
      · exact hr4 (List.mem_append_left _ (hiR ▸ hiRest))
    obtain ⟨hA, hB⟩ := ih (kceStep t st r) hnd' hsub' hworst' hdisj
      (fun c hc => h5 c (List.mem_cons_of_mem r hc))
    exact ⟨hA, hB.trans hlen'⟩

theorem kceStep_none_avgO (t : CTree) (st : KState) (r : Ctx)
    (h : st.avgO = none) :
    (kceStep t st r).best = st.best ∧ (kceStep t st r).avgO = st.avgO := by
  have hfalse : (jltB st.avgO (avgOverallScore t (kceCandidate st r)) &&
      jleB st.avgC (avgContribution (kceCandidate st r))) = false := by
    rw [h, jltB_none_left, Bool.false_and]
  constructor <;> simp only [kceStep, hfalse, Bool.false_eq_true, if_false]

/-- While the stored average overall score is NaN no candidate is ever
accepted: the working set survives the whole loop unchanged. -/
theorem kce_fold_none (t : CTree) :
    ∀ (rem : List Ctx) (st : KState), st.avgO = none →
      (rem.foldl (kceStep t) st).best = st.best := by
  intro rem
  induction rem with
  | nil => intro st _; rfl
  | cons r rest ih =>
    intro st h
    rw [List.foldl_cons]
    obtain ⟨hb, ho⟩ := kceStep_none_avgO t st r h
    rw [ih (kceStep t st r) (ho.trans h), hb]

theorem insertByScore_perm (key : Ctx → JNum) (x : Ctx) :
    ∀ (l : List Ctx), (insertByScore key x l).Perm (x :: l) := by
  intro l
  induction l with
  | nil => exact List.Perm.refl _
  | cons y tl ih =>
    simp only [insertByScore]
    split
    · exact List.Perm.refl _
    · exact (List.Perm.cons y ih).trans (List.Perm.swap x y tl)

/-- Lodash `sortBy` returns a permutation of its input. -/
theorem sortByScoreDesc_perm (key : Ctx → JNum) :
    ∀ (l : List Ctx), (sortByScoreDesc key l).Perm l := by
  intro l
  induction l with
  | nil => exact List.Perm.refl _
  | cons y tl ih =>
    simp only [sortByScoreDesc]
    exact (insertByScore_perm key y _).trans (List.Perm.cons y ih)

/-- The else-branch of `extractKeyConcepts`, written out. -/
theorem extractKeyConcepts_eq_fold (t : CTree) (n : ℤ)
    (h : ¬(((ctxList t).length : ℤ) ≤ n)) :
    extractKeyConcepts t n =
      (((sortByScoreDesc (scoreOf t) (ctxList t)).filter
          (fun c => c ∉ (sortByScoreDesc (scoreOf t) (ctxList t)).take n.toNat)).foldl
        (kceStep t)
        ⟨(sortByScoreDesc (scoreOf t) (ctxList t)).take n.toNat,
          avgContribution ((sortByScoreDesc (scoreOf t) (ctxList t)).take n.toNat),
          avgOverallScore t ((sortByScoreDesc (scoreOf t) (ctxList t)).take n.toNat),
          fun c => if c ∈ (sortByScoreDesc (scoreOf t) (ctxList t)).take n.toNat
            then overallScore t
              ((sortByScoreDesc (scoreOf t) (ctxList t)).take n.toNat) c
            else some 0⟩).best := by
  simp only [extractKeyConcepts]
  rw [if_neg h]

/-- The selection loop started on the top-`k` seed of any
duplicate-free permutation of the concept list returns `k` concepts
with pairwise distinct ids. -/
theorem kce_select_spec (t : CTree) (sorted : List Ctx) (k : Nat)
    (hperm : sorted.Perm (ctxList t)) (hnd : (sorted.map Ctx.id).Nodup)
    (hk : k ≤ sorted.length) :
    ((sorted.filter (fun c => c ∉ sorted.take k)).foldl (kceStep t)
        ⟨sorted.take k, avgContribution (sorted.take k),
          avgOverallScore t (sorted.take k),
          fun c => if c ∈ sorted.take k then overallScore t (sorted.take k) c
            else some 0⟩).best.length = k ∧
      (((sorted.filter (fun c => c ∉ sorted.take k)).foldl (kceStep t)
        ⟨sorted.take k, avgContribution (sorted.take k),
          avgOverallScore t (sorted.take k),
          fun c => if c ∈ sorted.take k then overallScore t (sorted.take k) c
            else some 0⟩).best.map Ctx.id).Nodup := by
  have hb0nd : ((sorted.take k).map Ctx.id).Nodup :=
    List.Nodup.sublist (List.Sublist.map Ctx.id (List.take_sublist k sorted)) hnd
  have hb0mem : ∀ c ∈ sorted.take k, c ∈ ctxList t :=
    fun c hc => hperm.subset ((List.take_sublist k sorted).subset hc)
  have hsplit : sorted.take k ++ sorted.drop k = sorted := List.take_append_drop k sorted
  have key : ∀ (P : Ctx → Bool), (∀ c ∈ sorted.take k, P c = false) →
      List.Sublist (sorted.filter P) (sorted.drop k) := by
    intro P hP
    conv_lhs => rw [← hsplit]
    rw [List.filter_append]
    have h1 : (sorted.take k).filter P = [] := by
      rw [List.filter_eq_nil_iff]
      intro c hc
      rw [hP c hc]
      simp
    rw [h1, List.nil_append]
    exact List.filter_sublist _
  have hfilt : List.Sublist (sorted.filter (fun c => c ∉ sorted.take k))
      (sorted.drop k) :=
    key _ (fun c hc => by simp [hc])
  have happ : ((sorted.filter (fun c => c ∉ sorted.take k)).map Ctx.id ++
      (sorted.take k).map Ctx.id).Nodup := by
    have hsub2 : List.Sublist
        ((sorted.filter (fun c => c ∉ sorted.take k)).map Ctx.id ++
          (sorted.take k).map Ctx.id)
        ((sorted.drop k).map Ctx.id ++ (sorted.take k).map Ctx.id) :=
      List.Sublist.append (List.Sublist.map Ctx.id hfilt) (List.Sublist.refl _)
    refine List.Nodup.sublist hsub2 ?_
    refine (List.Perm.nodup_iff List.perm_append_comm).mpr ?_
    rw [← List.map_append, hsplit]
    exact hnd
  have hworst0 : avgOverallScore t (sorted.take k) ≠ none →
      ∃ w, findWorst (sorted.take k)
          (fun c => if c ∈ sorted.take k then overallScore t (sorted.take k) c
            else some 0) = some w ∧ w ∈ sorted.take k := by
    intro hA
    obtain ⟨hne0, hall⟩ :=
      javg_ne_none (overallScore t (sorted.take k)) (sorted.take k) hA
    obtain ⟨c0, hc0⟩ := List.exists_mem_of_ne_nil _ hne0
    obtain ⟨q0, hq0⟩ := hall c0 hc0
    have hlt0 : q0 < 2 :=
      overallScore_lt_two t (sorted.take k) c0 hc0 (hb0mem c0 hc0) q0 hq0
    have hov0 : (if c0 ∈ sorted.take k
        then overallScore t (sorted.take k) c0 else some 0) = some q0 := by
      rw [if_pos hc0]
      exact hq0
    obtain ⟨w, hw⟩ := findWorst_some_of_mem (sorted.take k)
      (fun c => if c ∈ sorted.take k then overallScore t (sorted.take k) c
        else some 0) c0 hc0 q0 hov0 hlt0
    exact ⟨w, hw, (findWorst_some_spec _ _ w hw).1⟩
  obtain ⟨hA, hB⟩ := kce_fold_invariant t
    (sorted.filter (fun c => c ∉ sorted.take k))
    ⟨sorted.take k, avgContribution (sorted.take k),
      avgOverallScore t (sorted.take k),
      fun c => if c ∈ sorted.take k then overallScore t (sorted.take k) c
        else some 0⟩
    hb0nd hb0mem hworst0 happ
    (fun c hc => hperm.subset (List.mem_of_mem_filter hc))
  refine ⟨?_, hA⟩
  rw [hB]
  show (sorted.take k).length = k
  rw [List.length_take]
  exact Nat.min_eq_left hk

/-! ## C1 — extraction size boundaries -/

/-- C1 (amended): when the requested count covers the whole concept list
the extraction returns every concept; when `1 ≤ n <` the number of
concepts (and the data model's ids are globally unique) the result holds
exactly `n` concepts with pairwise distinct identifiers; and a
non-positive `n` is **silently clamped** — the scoring pipeline runs and
the result is empty — rather than being rejected before scoring, which
the code has no path for. -/
theorem C1_extraction_size (t : CTree) (n : ℤ) (hnd : (conceptIds t).Nodup) :
    ((((ctxList t).length : ℤ) ≤ n → extractKeyConcepts t n = ctxList t) ∧
      (1 ≤ n → n < ((ctxList t).length : ℤ) →
        (extractKeyConcepts t n).length = n.toNat ∧
          ((extractKeyConcepts t n).map Ctx.id).Nodup) ∧
      (n ≤ 0 → extractKeyConcepts t n = [])) := by
  refine ⟨?_, ?_, ?_⟩
  · intro h
    simp only [extractKeyConcepts]
    rw [if_pos h]
  · intro h1 h2
    have hneg : ¬(((ctxList t).length : ℤ) ≤ n) := by omega
    rw [extractKeyConcepts_eq_fold t n hneg]
    have hperm := sortByScoreDesc_perm (scoreOf t) (ctxList t)
    have hnd' : ((sortByScoreDesc (scoreOf t) (ctxList t)).map Ctx.id).Nodup :=
      (List.Perm.nodup_iff (hperm.map Ctx.id)).mpr hnd
    have hk : n.toNat ≤ (sortByScoreDesc (scoreOf t) (ctxList t)).length := by
      rw [hperm.length_eq]
      omega
    exact kce_select_spec t (sortByScoreDesc (scoreOf t) (ctxList t)) n.toNat
      hperm hnd' hk
  · intro h
    by_cases hc : ((ctxList t).length : ℤ) ≤ n
    · have h0 : (ctxList t).length = 0 := by omega
      simp only [extractKeyConcepts]
      rw [if_pos hc]
      exact List.eq_nil_of_length_eq_zero h0
    · rw [extractKeyConcepts_eq_fold t n hc]
      have h0 : n.toNat = 0 := Int.toNat_of_nonpos h
      rw [h0]
      rw [kce_fold_none t _ _ (by
        show avgOverallScore t ((sortByScoreDesc (scoreOf t) (ctxList t)).take 0) =
          none
        rw [List.take_zero]
        simp [avgOverallScore, javg, jsum, jdivq])]
      rfl

/-- C1 (counterexample): a non-positive requested count is not rejected
— the pipeline runs to completion and silently yields the empty set
(while a positive count on the same tree yields concepts). -/
theorem C1_counterexample :
    extractKeyConcepts exChain 0 = [] ∧ extractKeyConcepts exChain (-1) = [] ∧
      extractKeyConcepts exChain 2 ≠ [] := by
  refine ⟨by decide, by decide, by decide⟩

/-- Witness for C1 on the chain fixture with `n = 2`. -/
theorem C1_witness :
    ((((ctxList exChain).length : ℤ) ≤ 2 →
        extractKeyConcepts exChain 2 = ctxList exChain) ∧
      (1 ≤ (2 : ℤ) → (2 : ℤ) < ((ctxList exChain).length : ℤ) →
        (extractKeyConcepts exChain 2).length = (2 : ℤ).toNat ∧
          ((extractKeyConcepts exChain 2).map Ctx.id).Nodup) ∧
      ((2 : ℤ) ≤ 0 → extractKeyConcepts exChain 2 = [])) :=
  C1_extraction_size exChain 2 (by decide)

end KCE
